import Mathlib

/-!
Verification of the tic-tac-toe backend's core game logic, search engine and
match state machines, shallowly embedded from the JavaScript source.

Boards are modelled as `List Char` (the source uses a 9-character string with
`'-'` as the empty sentinel).  JavaScript numbers are modelled as `Int`/`Nat`;
the source's `Infinity`/`-Infinity` alpha-beta sentinels are modelled by the
integer constants `INF`/`-INF` with `INF = 1000000`, which exceeds every score
the search can produce (scores are bounded by `10 + depth`, and depth is at
most 9 in every reachable call), so every comparison made by the algorithm has
the same outcome as with real infinities.  The recursion of `minimax` (which
terminates in the source because every recursive call removes one empty cell)
is made structural by a fuel argument; all call sites use fuel 9, which is
greater than or equal to the number of empty cells of any 9-cell board, so the
fuel-exhaustion branch is never reached on the boards the program uses.
-/

namespace TicTacToeSpec

/-- The 8 winning index triples, from `WINNING_COMBINATIONS` in
`src/services/gameLogic.js` (3 rows, 3 columns, 2 diagonals). -/
def WINNING_COMBINATIONS : List (Nat × Nat × Nat) :=
  [(0, 1, 2), (3, 4, 5), (6, 7, 8), (0, 3, 6), (1, 4, 7), (2, 5, 8), (0, 4, 8), (2, 4, 6)]

/-- The first-match scan inside `checkWinner`: the source iterates over the
winning combinations and returns `board[a]` at the first triple whose three
cells are equal and not the empty sentinel. -/
def checkWinnerGo (board : List Char) : List (Nat × Nat × Nat) → Option Char
  | [] => none
  | (a, b, c) :: rest =>
    if board[a]? ≠ some '-' ∧ board[a]? = board[b]? ∧ board[b]? = board[c]? then board[a]?
    else checkWinnerGo board rest

/-- `checkWinner` from `src/services/gameLogic.js`: the symbol holding a
complete triple, or `none`. -/
def checkWinner (board : List Char) : Option Char :=
  checkWinnerGo board WINNING_COMBINATIONS

/-- `isDraw` from `src/services/gameLogic.js`: board full and no winner. -/
def isDraw (board : List Char) : Bool :=
  !board.contains '-' && (checkWinner board).isNone

/-- `isValidMove` from `src/services/gameLogic.js`.  The position is a `Nat`
here (the routes validate `0 ≤ position ≤ 8` before calling), so only the
upper bound check of the source remains meaningful. -/
def isValidMove (board : List Char) (position : Nat) : Bool :=
  if position > 8 then false else board[position]? == some '-'

/-- `makeMove` from `src/services/gameLogic.js`: copy of the board with
`position` set to `symbol` (for in-range positions `List.set` is exactly the
source's split/assign/join). -/
def makeMove (board : List Char) (position : Nat) (symbol : Char) : List Char :=
  board.set position symbol

/-- `countMoves` from `src/services/gameLogic.js`: occupied cells. -/
def countMoves (board : List Char) : Nat :=
  (board.filter (fun c => c != '-')).length

/-- `getAvailableMoves` from `src/services/gameLogic.js`: indices `0..8`
holding the empty sentinel, in ascending order. -/
def getAvailableMoves (board : List Char) : List Nat :=
  (List.range 9).filter (fun i => board[i]? == some '-')

/-- `getNextSymbol` from `src/services/gameLogic.js`. -/
def getNextSymbol (board : List Char) : Char :=
  let xCount := (board.filter (fun c => c == 'X')).length
  let oCount := (board.filter (fun c => c == 'O')).length
  if xCount ≤ oCount then 'X' else 'O'

/-- The `{ valid, error? }` object returned by `validateBoard`. -/
structure ValidationResult where
  valid : Bool
  error : Option String
deriving Repr, DecidableEq

/-- `validateBoard` from `src/services/gameLogic.js`: length 9, only
`X`/`O`/`-` characters, and X moved as often as O or exactly once more. -/
def validateBoard (board : List Char) : ValidationResult :=
  if board.length ≠ 9 then ⟨false, some "Invalid board length"⟩
  else if !(board.all fun c => c == 'X' || c == 'O' || c == '-') then
    ⟨false, some "Invalid board characters"⟩
  else
    let xCount := (board.filter (fun c => c == 'X')).length
    let oCount := (board.filter (fun c => c == 'O')).length
    if xCount < oCount ∨ xCount > oCount + 1 then ⟨false, some "Invalid move count"⟩
    else ⟨true, none⟩

/-- The `{ isOver, winner, isDraw }` object returned by `checkGameOver`. -/
structure GameOverResult where
  isOver : Bool
  winner : Option Char
  isDraw : Bool
deriving Repr, DecidableEq

/-- `checkGameOver` from `src/services/bot.js`. -/
def checkGameOver (board : List Char) : GameOverResult :=
  let winner := checkWinner board
  let draw := isDraw board
  ⟨winner.isSome || draw, winner, draw⟩

/-- Model of JavaScript `Infinity` in the alpha-beta search: larger than every
score `minimax` can produce (scores are bounded by `10 + depth + fuel`), so
every comparison agrees with real-infinity semantics. -/
def INF : Int := 1000000

/-- The maximizing loop of `minimax` in `src/services/bot.js`: iterate over the
available moves with a running `maxScore` and `alpha`, breaking when
`beta ≤ alpha`.  `next` is the recursive call at one less fuel (depth + 1,
minimizing). -/
def maxLoop (next : List Char → Int → Int → Int) (board : List Char) (botSymbol : Char)
    (beta : Int) : List Nat → Int → Int → Int
  | [], _, maxScore => maxScore
  | position :: rest, alpha, maxScore =>
    let newBoard := makeMove board position botSymbol
    let score := next newBoard alpha beta
    let maxScore1 := max maxScore score
    let alpha1 := max alpha score
    if beta ≤ alpha1 then maxScore1
    else maxLoop next board botSymbol beta rest alpha1 maxScore1

/-- The minimizing loop of `minimax` in `src/services/bot.js`. -/
def minLoop (next : List Char → Int → Int → Int) (board : List Char) (playerSymbol : Char)
    (alpha : Int) : List Nat → Int → Int → Int
  | [], _, minScore => minScore
  | position :: rest, beta, minScore =>
    let newBoard := makeMove board position playerSymbol
    let score := next newBoard alpha beta
    let minScore1 := min minScore score
    let beta1 := min beta score
    if beta1 ≤ alpha then minScore1
    else minLoop next board playerSymbol alpha rest beta1 minScore1

/-- `minimax` from `src/services/bot.js` (alpha-beta pruned).  The fuel makes
the recursion structural; every call site uses fuel 9 ≥ number of empty
cells, so the fuel-0 branch is never reached there (the recursion always
stops at a full board first). -/
def minimax (fuel : Nat) (board : List Char) (depth : Int) (isMaximizing : Bool)
    (alpha beta : Int) (botSymbol playerSymbol : Char) : Int :=
  if checkWinner board = some botSymbol then 10 - depth
  else if checkWinner board = some playerSymbol then depth - 10
  else if isDraw board then 0
  else
    match fuel with
    | 0 => 0
    | fuel' + 1 =>
      let availableMoves := getAvailableMoves board
      if isMaximizing then
        maxLoop (fun b a bt => minimax fuel' b (depth + 1) false a bt botSymbol playerSymbol)
          board botSymbol beta availableMoves alpha (-INF)
      else
        minLoop (fun b a bt => minimax fuel' b (depth + 1) true a bt botSymbol playerSymbol)
          board playerSymbol alpha availableMoves beta INF

/-- The final loop of `findBestMove`: root search over all available moves,
keeping the first move whose score strictly improves on the best so far. -/
def bestLoop (board : List Char) (botSymbol playerSymbol : Char) :
    List Nat → Int → Int → Int
  | [], bestMove, _ => bestMove
  | position :: rest, bestMove, bestScore =>
    let newBoard := makeMove board position botSymbol
    let score := minimax 9 newBoard 0 false (-INF) INF botSymbol playerSymbol
    if bestScore < score then bestLoop board botSymbol playerSymbol rest (position : Int) score
    else bestLoop board botSymbol playerSymbol rest bestMove bestScore

/-- `findBestMove` from `src/services/bot.js`: -1 on a full board, the center
on an empty board or as the second move when the center is free, else an
immediate win if one exists, else an immediate block if one exists, else the
root minimax search (first maximal-scoring move in ascending order). -/
def findBestMove (board : List Char) (botSymbol playerSymbol : Char) : Int :=
  let availableMoves := getAvailableMoves board
  if availableMoves.length = 0 then -1
  else if availableMoves.length = 9 then 4
  else if availableMoves.length = 8 ∧ board[4]? = some '-' then 4
  else
    match availableMoves.find? (fun position =>
        checkWinner (makeMove board position botSymbol) == some botSymbol) with
    | some position => (position : Int)
    | none =>
      match availableMoves.find? (fun position =>
          checkWinner (makeMove board position playerSymbol) == some playerSymbol) with
      | some position => (position : Int)
      | none => bestLoop board botSymbol playerSymbol availableMoves
          ((availableMoves.headD 0 : Nat) : Int) (-INF)

/-! ## Specification-side definitions

`minimaxNoPruning` renders the spec's "exhaustive minimax without pruning"
(§4.2), the refinement partner of the source's alpha-beta `minimax`.
`value` is the game-theoretic outcome of a position under optimal play by
both sides (1 = the distinguished side `me` wins, 0 = draw, -1 = `me`
loses), used to state "never results in a loss".  `noLoseFast` is an
executable certificate checker for `value ≥ 0` over bitmask-encoded boards
(bit `i` of a mask = cell `i` holds that side's symbol); its soundness with
respect to `value` is proved below, and it exists only because the kernel
evaluates GMP-backed `Nat` operations far faster than list traversals. -/

/-- Exhaustive minimax without pruning, following the spec's words; identical
to `minimax` except that the alpha-beta window is gone. -/
def minimaxNoPruning (fuel : Nat) (board : List Char) (depth : Int) (isMaximizing : Bool)
    (botSymbol playerSymbol : Char) : Int :=
  if checkWinner board = some botSymbol then 10 - depth
  else if checkWinner board = some playerSymbol then depth - 10
  else if isDraw board then 0
  else
    match fuel with
    | 0 => 0
    | fuel' + 1 =>
      if isMaximizing then
        ((getAvailableMoves board).map fun position =>
          minimaxNoPruning fuel' (makeMove board position botSymbol) (depth + 1) false
            botSymbol playerSymbol).foldl max (-INF)
      else
        ((getAvailableMoves board).map fun position =>
          minimaxNoPruning fuel' (makeMove board position playerSymbol) (depth + 1) true
            botSymbol playerSymbol).foldl min INF

/-- Game-theoretic outcome for side `me` (symbol `me`, opponent `opp`) with
`meToMove` telling whose turn it is: 1 if `me` wins under mutually optimal
play, 0 for a draw, -1 if `me` loses.  Same fuel discipline as `minimax`. -/
def value (fuel : Nat) (board : List Char) (me opp : Char) (meToMove : Bool) : Int :=
  match checkWinner board with
  | some w => if w = me then 1 else -1
  | none =>
    if isDraw board then 0
    else
      match fuel with
      | 0 => 0
      | fuel' + 1 =>
        if meToMove then
          ((getAvailableMoves board).map fun position =>
            value fuel' (makeMove board position me) me opp false).foldl max (-1)
        else
          ((getAvailableMoves board).map fun position =>
            value fuel' (makeMove board position opp) me opp true).foldl min 1

/-- Bitmasks of the 8 winning triples (bit `i` = cell `i`). -/
def WIN_MASKS : List Nat := [7, 56, 448, 73, 146, 292, 273, 84]

/-- The bitmask of one winning triple. -/
def maskOfTriple (t : Nat × Nat × Nat) : Nat :=
  1 <<< t.1 ||| 1 <<< t.2.1 ||| 1 <<< t.2.2

/-- Does the mask contain a complete winning triple? -/
def winsMask (m : Nat) : Bool :=
  WIN_MASKS.any fun w => m &&& w == w

/-- Bitmask of the cells of `board` holding symbol `s`. -/
def symMask (board : List Char) (s : Char) : Nat :=
  match board with
  | [] => 0
  | c :: rest => Nat.bit (c == s) (symMask rest s)

/-- Executable certificate that the side holding `meMask` does not lose from
this position (`meToMove` tells whose turn it is): a win or draw is reached
in every line when `me` picks its moves and the opponent ranges over all of
its moves.  Sound for `value ≥ 0` (proved below), complete enough for the
concrete openings it is applied to. -/
def noLoseFast (fuel : Nat) (meMask oppMask : Nat) (meToMove : Bool) : Bool :=
  if winsMask meMask then true
  else if winsMask oppMask then false
  else if meMask ||| oppMask == 511 then true
  else
    match fuel with
    | 0 => false
    | fuel' + 1 =>
      if meToMove then
        ((List.range 9).filter fun i => (meMask ||| oppMask) >>> i &&& 1 == 0).any fun p =>
          noLoseFast fuel' (meMask ||| 1 <<< p) oppMask false
      else
        ((List.range 9).filter fun i => (meMask ||| oppMask) >>> i &&& 1 == 0).all fun p =>
          noLoseFast fuel' meMask (oppMask ||| 1 <<< p) true

/-- A winning triple of `board` monochromatic in `s`, with the triple's cells
given by one entry of `WINNING_COMBINATIONS`. -/
def monoTriple (board : List Char) (t : Nat × Nat × Nat) (s : Char) : Prop :=
  board[t.1]? = some s ∧ board[t.2.1]? = some s ∧ board[t.2.2]? = some s

/-! ## Match state machine (human vs human, "Room")

Translated from `src/routes/rooms.js` (create/join/leave) and the
`/:roomId/move` route of `src/routes/game.js`.  User ids are `Nat`; a route
handler's `throw` inside `prisma.$transaction` rolls the transaction back,
which the embedding renders by returning an error and no new state.  The
`ROOM_NOT_FOUND`/`GAME_NOT_FOUND` outcome (the fetch step) is outside this
state-level model, which starts from a fetched row. -/

/-- One row of the `Move` table (a room match's move log). -/
structure MoveEntry where
  playerId : Nat
  position : Nat
  symbol : Char
  moveOrder : Nat
deriving Repr, DecidableEq

/-- One `Room` row, with its spectator set and its move log. -/
structure Room where
  status : String
  player1Id : Option Nat
  player2Id : Option Nat
  currentTurn : Option String
  board : List Char
  winnerId : Option Nat
  isDraw : Bool
  version : Nat
  spectators : List Nat
  moves : List MoveEntry
deriving Repr, DecidableEq

/-- `POST /api/rooms` from `src/routes/rooms.js`: fresh room, creator seated
as player one, `waiting`, turn `player1`; board, version, isDraw come from
the schema defaults (`'---------'`, 0, false). -/
def createRoom (userId : Nat) : Room :=
  ⟨"waiting", some userId, none, some "player1",
    ['-', '-', '-', '-', '-', '-', '-', '-', '-'], none, false, 0, [], []⟩

/-- The `clientVersion !== undefined && current !== clientVersion` test of the
move routes. -/
def versionMismatch (current : Nat) (clientVersion : Option Nat) : Bool :=
  match clientVersion with
  | none => false
  | some v => current != v

/-- The error outcomes of the room move route (in the source these are the
thrown error strings). -/
inductive GameError where
  | GAME_NOT_STARTED
  | GAME_FINISHED
  | VERSION_CONFLICT
  | NOT_A_PLAYER
  | NOT_YOUR_TURN
  | INVALID_MOVE
deriving Repr, DecidableEq

/-- The seat of `userId` in `room`, as determined by the move route: player
one first, then player two, else `none` (which the route turns into
`NOT_A_PLAYER`). -/
def playerRoleOf (room : Room) (userId : Nat) : Option String :=
  if room.player1Id = some userId then some "player1"
  else if room.player2Id = some userId then some "player2"
  else none

/-- The state update of an accepted room move (the `tx.room.update` plus the
`tx.move.create` of the route): apply the move, evaluate terminal
conditions, increment the version by one, append a move-log row with
`moveOrder = countMoves(old board) + 1`. -/
def applyRoomMove (room : Room) (userId : Nat) (position : Nat) (playerRole : String) : Room :=
  let symbol := if playerRole = "player1" then 'X' else 'O'
  let newBoard := makeMove room.board position symbol
  let winner := checkWinner newBoard
  let draw := isDraw newBoard
  let newStatus := if winner.isSome then "finished" else if draw then "finished" else "in-progress"
  let newWinnerId := if winner.isSome then some userId else none
  let newCurrentTurn : Option String :=
    if winner.isSome then none
    else if draw then none
    else if playerRole = "player1" then some "player2" else some "player1"
  let moveCount := countMoves room.board
  { room with
    board := newBoard
    currentTurn := newCurrentTurn
    status := newStatus
    winnerId := newWinnerId
    isDraw := draw
    version := room.version + 1
    moves := room.moves ++ [⟨userId, position, symbol, moveCount + 1⟩] }

/-- The transaction body of `POST /api/game/:roomId/move`: the checks in
source order (waiting, finished, version, participant, turn, cell), then the
accepted update.  The source's `if (cond) throw` guards are rendered as
positively-phrased conditionals with flipped branches. -/
def gameMove (room : Room) (userId : Nat) (position : Nat) (clientVersion : Option Nat) :
    Except GameError Room :=
  if room.status = "waiting" then .error .GAME_NOT_STARTED
  else if room.status = "finished" then .error .GAME_FINISHED
  else if versionMismatch room.version clientVersion then .error .VERSION_CONFLICT
  else
    match playerRoleOf room userId with
    | none => .error .NOT_A_PLAYER
    | some playerRole =>
      if room.currentTurn = some playerRole then
        if isValidMove room.board position then .ok (applyRoomMove room userId position playerRole)
        else .error .INVALID_MOVE
      else .error .NOT_YOUR_TURN

/-- The transaction body of `POST /api/rooms/:code/join`: idempotent re-join
for a seated player or recorded spectator; otherwise take the empty
player-two seat of a waiting room (starting the game); otherwise become a
spectator.  No branch touches `version`. -/
def joinRoom (room : Room) (userId : Nat) : Room :=
  if room.player1Id = some userId ∨ room.player2Id = some userId ∨ userId ∈ room.spectators then
    room
  else if room.player2Id = none ∧ room.status = "waiting" then
    { room with player2Id := some userId, status := "in-progress" }
  else
    { room with spectators := room.spectators ++ [userId] }

/-- `POST /api/rooms/:code/leave`: a non-player is removed from the
spectator set; player one's leave deletes the room (`none`); player two's
leave forfeits an in-progress game (status `finished`, winner player one,
seat cleared — the source updates nothing else) or clears the seat of a
waiting room. -/
def leaveRoom (room : Room) (userId : Nat) : Option Room :=
  if room.player1Id ≠ some userId ∧ room.player2Id ≠ some userId then
    some { room with spectators := room.spectators.filter (fun u => u != userId) }
  else if room.player1Id = some userId then none
  else if room.status = "in-progress" then
    some { room with status := "finished", winnerId := room.player1Id, player2Id := none }
  else
    some { room with player2Id := none, status := "waiting" }

/-- One move request: caller, cell, and the version it read. -/
structure MoveReq where
  uid : Nat
  pos : Nat
  ver : Option Nat
deriving Repr, DecidableEq

/-- Serialized execution of a batch of move transactions against one room:
the persistence layer runs the transactions one after another; a failed
transaction rolls back and leaves the row unchanged.  Returns the final row
and each call's outcome. -/
def runMoves (room : Room) : List MoveReq → Room × List (Except GameError Room)
  | [] => (room, [])
  | r :: rest =>
    match gameMove room r.uid r.pos r.ver with
    | .ok room1 =>
      let out := runMoves room1 rest
      (out.1, .ok room1 :: out.2)
    | .error e =>
      let out := runMoves room rest
      (out.1, .error e :: out.2)

/-! ## Match state machine (vs automated opponent, "BotGame")

Translated from `src/routes/bot.js`. -/

/-- One row of the `BotMove` table.  `position` is an `Int` because the bot's
recorded position is `findBestMove`'s raw return value. -/
structure BotMoveEntry where
  player : String
  position : Int
  symbol : Char
  moveOrder : Nat
deriving Repr, DecidableEq

/-- One `BotGame` row with its move log. -/
structure BotGame where
  userId : Nat
  board : List Char
  playerSymbol : Char
  currentTurn : Option String
  status : String
  winner : Option String
  version : Nat
  moves : List BotMoveEntry
deriving Repr, DecidableEq

/-- The error outcomes of the bot move route. -/
inductive BotError where
  | NOT_YOUR_GAME
  | GAME_FINISHED
  | NOT_YOUR_TURN
  | VERSION_CONFLICT
  | INVALID_MOVE
deriving Repr, DecidableEq

/-- `POST /api/bot/create`: the human's symbol is `X` unless `goFirst` is the
literal `false`; when the bot goes first its opening move is computed and
applied before the game is stored, recorded as move-log entry 1; `currentTurn`
is `player` either way; status/version/winner come from the schema defaults. -/
def botCreate (userId : Nat) (goFirst : Option Bool) : BotGame :=
  let board := ['-', '-', '-', '-', '-', '-', '-', '-', '-']
  let playerSymbol := if goFirst = some false then 'O' else 'X'
  let botSymbol := if playerSymbol = 'X' then 'O' else 'X'
  if goFirst = some false then
    let botMv := findBestMove board botSymbol playerSymbol
    ⟨userId, makeMove board botMv.toNat botSymbol, playerSymbol, some "player",
      "in-progress", none, 0, [⟨"bot", botMv, botSymbol, 1⟩]⟩
  else
    ⟨userId, board, playerSymbol, some "player", "in-progress", none, 0, []⟩

/-- The final `botGame.update` of the bot move route: board, turn (`player`
unless over), status, mapped winner, version + 1. -/
def botFinalize (game : BotGame) (newBoard : List Char) (newMoves : List BotMoveEntry)
    (playerSymbol botSymbol : Char) (gameOver : GameOverResult) : BotGame :=
  let newWinner : Option String :=
    if gameOver.winner = some playerSymbol then some "player"
    else if gameOver.winner = some botSymbol then some "bot"
    else none
  { game with
    board := newBoard
    currentTurn := if gameOver.isOver then none else some "player"
    status := if gameOver.isOver then "finished" else "in-progress"
    winner := newWinner
    version := game.version + 1
    moves := newMoves }

/-- The transaction body of `POST /api/bot/:gameId/move`: the checks in
source order (ownership, finished, turn, version, cell); then the human's
move is applied and logged; if the game is not over the bot's reply is
computed, applied and logged; then the row is updated once. -/
def botMove (game : BotGame) (userId : Nat) (position : Nat) (clientVersion : Option Nat) :
    Except BotError BotGame :=
  if game.userId = userId then
    if game.status = "finished" then .error .GAME_FINISHED
    else if game.currentTurn = some "player" then
      if versionMismatch game.version clientVersion then .error .VERSION_CONFLICT
      else if isValidMove game.board position then
        let playerSymbol := game.playerSymbol
        let botSymbol := if playerSymbol = 'X' then 'O' else 'X'
        let currentMoveOrder := game.moves.length
        let newBoard := makeMove game.board position playerSymbol
        let movesAfterPlayer := game.moves ++
          [⟨"player", (position : Int), playerSymbol, currentMoveOrder + 1⟩]
        let gameOver := checkGameOver newBoard
        if gameOver.isOver then
          .ok (botFinalize game newBoard movesAfterPlayer playerSymbol botSymbol gameOver)
        else
          let botMv := findBestMove newBoard botSymbol playerSymbol
          let newBoard2 := makeMove newBoard botMv.toNat botSymbol
          let movesAfterBot := movesAfterPlayer ++
            [⟨"bot", botMv, botSymbol, currentMoveOrder + 2⟩]
          let gameOver2 := checkGameOver newBoard2
          .ok (botFinalize game newBoard2 movesAfterBot playerSymbol botSymbol gameOver2)
      else .error .INVALID_MOVE
    else .error .NOT_YOUR_TURN
  else .error .NOT_YOUR_GAME

/-- Serialized execution of a batch of bot-move transactions, as `runMoves`. -/
def runBotMoves (game : BotGame) : List MoveReq → BotGame × List (Except BotError BotGame)
  | [] => (game, [])
  | r :: rest =>
    match botMove game r.uid r.pos r.ver with
    | .ok game1 =>
      let out := runBotMoves game1 rest
      (out.1, .ok game1 :: out.2)
    | .error e =>
      let out := runBotMoves game rest
      (out.1, .error e :: out.2)

/-- The room states reachable through the modelled operations. -/
inductive RoomReachable : Room → Prop where
  | created : ∀ userId, RoomReachable (createRoom userId)
  | joined : ∀ room userId, RoomReachable room → RoomReachable (joinRoom room userId)
  | moved : ∀ room userId position clientVersion room1, RoomReachable room →
      gameMove room userId position clientVersion = .ok room1 → RoomReachable room1
  | left : ∀ room userId room1, RoomReachable room →
      leaveRoom room userId = some room1 → RoomReachable room1

/-- The bot-game states reachable through the modelled operations. -/
inductive BotReachable : BotGame → Prop where
  | created : ∀ userId goFirst, BotReachable (botCreate userId goFirst)
  | moved : ∀ game userId position clientVersion game1, BotReachable game →
      botMove game userId position clientVersion = .ok game1 → BotReachable game1

/-- The `moveOrder` column of a room match's move log, in insertion order. -/
def moveOrders (moves : List MoveEntry) : List Nat :=
  moves.map fun m => m.moveOrder

/-- The `moveOrder` column of a bot game's move log, in insertion order. -/
def botMoveOrders (moves : List BotMoveEntry) : List Nat :=
  moves.map fun m => m.moveOrder

/-- Fail-soft alpha-beta correctness predicate: `A` is the pruned result,
`P` the exhaustive value; inside the window they agree, outside it `A` is a
sound bound. -/
def approx (lo hi P A : Int) : Prop :=
  (lo < A → A ≤ P) ∧ (A < hi → P ≤ A)

instance monoTripleDecidable (board : List Char) (t : Nat × Nat × Nat) (s : Char) :
    Decidable (monoTriple board t s) :=
  inferInstanceAs (Decidable (_ ∧ _ ∧ _))

/-! ## Basic board lemmas -/

theorem checkWinnerGo_eq_none_iff (board : List Char) (l : List (Nat × Nat × Nat))
    (hidx : ∀ t ∈ l, t.1 < board.length) :
    checkWinnerGo board l = none ↔
      ∀ t ∈ l, ∀ w : Char, w ≠ '-' → ¬ monoTriple board t w := by
  induction l with
  | nil => simp [checkWinnerGo]
  | cons t rest ih =>
    obtain ⟨a, b, c⟩ := t
    have ha : a < board.length := hidx (a, b, c) (List.mem_cons_self _ _)
    rw [checkWinnerGo]
    split
    · rename_i hcond
      obtain ⟨x, hx⟩ : ∃ x, board[a]? = some x :=
        ⟨board[a], List.getElem?_eq_getElem ha⟩
      constructor
      · intro hnone
        rw [hx] at hnone
        exact absurd hnone (by simp)
      · intro hall
        have hxd : x ≠ '-' := by
          intro h
          exact hcond.1 (by rw [hx, h])
        refine absurd ?_ (hall (a, b, c) (List.mem_cons_self _ _) x hxd)
        exact ⟨hx, hcond.2.1 ▸ hx, hcond.2.2 ▸ hcond.2.1 ▸ hx⟩
    · rename_i hcond
      rw [ih (fun t ht => hidx t (List.mem_cons_of_mem _ ht))]
      constructor
      · intro hall t ht w hw hmono
        rcases List.mem_cons.mp ht with h | h
        · subst h
          obtain ⟨h1, h2, h3⟩ := hmono
          exact hcond ⟨by simp [h1, hw], by rw [h1, h2], by rw [h2, h3]⟩
        · exact hall t h w hw hmono
      · intro hall t ht
        exact hall t (List.mem_cons_of_mem _ ht)

theorem checkWinnerGo_eq_some (board : List Char) (l : List (Nat × Nat × Nat)) (w : Char)
    (h : checkWinnerGo board l = some w) :
    ∃ t ∈ l, monoTriple board t w ∧ w ≠ '-' := by
  induction l with
  | nil => simp [checkWinnerGo] at h
  | cons t rest ih =>
    obtain ⟨a, b, c⟩ := t
    rw [checkWinnerGo] at h
    split at h
    · rename_i hcond
      refine ⟨(a, b, c), List.mem_cons_self _ _, ?_, ?_⟩
      · exact ⟨h, hcond.2.1 ▸ h, hcond.2.2 ▸ hcond.2.1 ▸ h⟩
      · intro hw
        exact hcond.1 (hw ▸ h)
    · obtain ⟨t, ht, hmono, hw⟩ := ih h
      exact ⟨t, List.mem_cons_of_mem _ ht, hmono, hw⟩

theorem checkWinner_eq_some_mono (board : List Char) (w : Char)
    (h : checkWinner board = some w) :
    ∃ t ∈ WINNING_COMBINATIONS, monoTriple board t w ∧ w ≠ '-' :=
  checkWinnerGo_eq_some board WINNING_COMBINATIONS w h

theorem combos_idx_lt (board : List Char) (hlen : board.length = 9) :
    ∀ t ∈ WINNING_COMBINATIONS, t.1 < board.length := by
  rw [hlen]; decide

/-- On a 9-cell board, `checkWinner` is `none` exactly when no winning triple
is monochromatic. -/
theorem checkWinner_eq_none_iff (board : List Char) (hlen : board.length = 9) :
    checkWinner board = none ↔
      ∀ t ∈ WINNING_COMBINATIONS, ∀ w : Char, w ≠ '-' → ¬ monoTriple board t w :=
  checkWinnerGo_eq_none_iff board WINNING_COMBINATIONS (combos_idx_lt board hlen)

theorem checkWinner_none_no_mono (board : List Char) (t : Nat × Nat × Nat) (w : Char)
    (hlen : board.length = 9) (ht : t ∈ WINNING_COMBINATIONS)
    (hnone : checkWinner board = none) (hw : w ≠ '-') :
    ¬ monoTriple board t w :=
  (checkWinner_eq_none_iff board hlen).mp hnone t ht w hw

theorem mem_getAvailableMoves (board : List Char) (p : Nat) :
    p ∈ getAvailableMoves board ↔ p < 9 ∧ board[p]? = some '-' := by
  simp [getAvailableMoves, List.mem_filter, List.mem_range]

/-- A triple's cells not containing the set position are unchanged by the move. -/
theorem monoTriple_set_of_not_mem (board : List Char) (p : Nat) (s : Char)
    (t : Nat × Nat × Nat) (w : Char)
    (hp : p ≠ t.1 ∧ p ≠ t.2.1 ∧ p ≠ t.2.2)
    (hmono : monoTriple (makeMove board p s) t w) : monoTriple board t w := by
  obtain ⟨h1, h2, h3⟩ := hmono
  rw [makeMove, List.getElem?_set_ne hp.1] at h1
  rw [makeMove, List.getElem?_set_ne hp.2.1] at h2
  rw [makeMove, List.getElem?_set_ne hp.2.2] at h3
  exact ⟨h1, h2, h3⟩

/-- Every monochromatic triple created by placing `s` on a winner-free
9-cell board is an `s`-triple through the placed cell. -/
theorem mono_of_set_winner_free (board : List Char) (p : Nat) (s : Char)
    (t : Nat × Nat × Nat) (w : Char)
    (hlen : board.length = 9) (hp : p < 9)
    (hnone : checkWinner board = none) (ht : t ∈ WINNING_COMBINATIONS) (hw : w ≠ '-')
    (hmono : monoTriple (makeMove board p s) t w) :
    w = s ∧ (p = t.1 ∨ p = t.2.1 ∨ p = t.2.2) := by
  by_cases hmem : p = t.1 ∨ p = t.2.1 ∨ p = t.2.2
  · refine ⟨?_, hmem⟩
    have hcell : (makeMove board p s)[p]? = some s := by
      rw [makeMove, List.getElem?_set_self (by rw [hlen]; exact hp)]
    obtain ⟨h1, h2, h3⟩ := hmono
    rcases hmem with h | h | h
    · rw [← h] at h1; rw [hcell] at h1; exact (Option.some_inj.mp h1).symm
    · rw [← h] at h2; rw [hcell] at h2; exact (Option.some_inj.mp h2).symm
    · rw [← h] at h3; rw [hcell] at h3; exact (Option.some_inj.mp h3).symm
  · push_neg at hmem
    have := monoTriple_set_of_not_mem board p s t w hmem hmono
    exact absurd this (checkWinner_none_no_mono board t w hlen ht hnone hw)

/-- Claim C6, counterexample: on a board that already carries an opponent
triple, `winner(apply(b, c, s))` is non-none although placing `s` completed
no triple of `s`'s symbol (the returned winner is the pre-existing `O`). -/
theorem claim6_counterexample :
    checkWinner (makeMove ['O', 'O', 'O', '-', '-', '-', '-', '-', '-'] 3 'X') = some 'O' ∧
      ∀ t ∈ WINNING_COMBINATIONS,
        ¬ monoTriple (makeMove ['O', 'O', 'O', '-', '-', '-', '-', '-', '-'] 3 'X') t 'X' := by
  decide

/-- Claim C6, amended: on a 9-cell board with no pre-existing winner, if
placing `s` at cell `c` produces a winner then that winner is `s` itself and
the placement completed one of the 8 fixed triples (a triple through `c`
whose three cells now all hold `s`). -/
theorem claim6_theorem (b : List Char) (c : Nat) (s w : Char)
    (hlen : b.length = 9) (hnone : checkWinner b = none) (hc : c < 9)
    (hw : checkWinner (makeMove b c s) = some w) :
    w = s ∧ ∃ t ∈ WINNING_COMBINATIONS,
      (c = t.1 ∨ c = t.2.1 ∨ c = t.2.2) ∧ monoTriple (makeMove b c s) t s := by
  obtain ⟨t, ht, hmono, hne⟩ := checkWinner_eq_some_mono _ w hw
  obtain ⟨hws, hmem⟩ := mono_of_set_winner_free b c s t w hlen hc hnone ht hne hmono
  subst hws
  exact ⟨rfl, t, ht, hmem, hmono⟩

/-- Claim C6, witness: placing `X` at cell 2 of `XX-OO----` completes the top
row. -/
theorem claim6_witness :
    'X' = 'X' ∧ ∃ t ∈ WINNING_COMBINATIONS,
      (2 = t.1 ∨ 2 = t.2.1 ∨ 2 = t.2.2) ∧
        monoTriple (makeMove ['X', 'X', '-', 'O', 'O', '-', '-', '-', '-'] 2 'X') t 'X' :=
  claim6_theorem ['X', 'X', '-', 'O', 'O', '-', '-', '-', '-'] 2 'X' 'X'
    (by decide) (by decide) (by decide) (by decide)

/-! ## State-machine lemmas -/

/-- Everything an accepted room move guarantees about the committed row. -/
theorem gameMove_ok_spec (room : Room) (userId position : Nat) (clientVersion : Option Nat)
    (room1 : Room) (h : gameMove room userId position clientVersion = .ok room1) :
    isValidMove room.board position = true ∧
    ∃ symbol, (symbol = 'X' ∨ symbol = 'O') ∧
      room1.board = makeMove room.board position symbol ∧
      room1.version = room.version + 1 ∧
      room1.moves = room.moves ++ [⟨userId, position, symbol, countMoves room.board + 1⟩] ∧
      (room1.status = "finished" ∨ room1.status = "in-progress") := by
  unfold gameMove at h
  split at h; · cases h
  split at h; · cases h
  split at h; · cases h
  split at h
  · cases h
  rename_i playerRole hrole
  split at h
  case isFalse => cases h
  split at h
  case isFalse => cases h
  rename_i hturn hvalid
  rw [Except.ok.injEq] at h
  subst h
  have hsym : (if playerRole = "player1" then 'X' else 'O') = 'X' ∨
      (if playerRole = "player1" then 'X' else 'O') = 'O' := by
    split
    · left; rfl
    · right; rfl
  refine ⟨hvalid, if playerRole = "player1" then 'X' else 'O', hsym, rfl, rfl, rfl, ?_⟩
  show (applyRoomMove room userId position playerRole).status = "finished" ∨
    (applyRoomMove room userId position playerRole).status = "in-progress"
  unfold applyRoomMove
  dsimp only []
  split
  · split
    · left; rfl
    · split
      · left; rfl
      · right; rfl
  · split
    · left; rfl
    · split
      · left; rfl
      · right; rfl

/-- A failed room move is pure: the transaction rolls back (in the embedding,
the error constructor carries no state).  What the committed row looks like
after a success is `gameMove_ok_spec`; here: after a commit at version `v`,
any further call carrying `some v` fails with `GAME_FINISHED` or
`VERSION_CONFLICT`. -/
theorem gameMove_fails_after (room1 : Room) (v0 uid pos : Nat)
    (hver : room1.version ≠ v0)
    (hst : room1.status = "finished" ∨ room1.status = "in-progress") :
    gameMove room1 uid pos (some v0) = .error .GAME_FINISHED ∨
      gameMove room1 uid pos (some v0) = .error .VERSION_CONFLICT := by
  unfold gameMove
  rcases hst with hst | hst
  · rw [hst]
    rw [if_neg (by decide), if_pos rfl]
    left; rfl
  · rw [hst]
    rw [if_neg (by decide), if_neg (by decide),
      if_pos (show versionMismatch room1.version (some v0) = true by
        simp [versionMismatch, hver])]
    right; rfl

theorem runMoves_all_fail (reqs : List MoveReq) (room1 : Room) (v0 : Nat)
    (hver : room1.version ≠ v0)
    (hst : room1.status = "finished" ∨ room1.status = "in-progress")
    (hreqs : ∀ r ∈ reqs, r.ver = some v0) :
    (runMoves room1 reqs).1 = room1 ∧
      ∀ res ∈ (runMoves room1 reqs).2,
        res = .error .GAME_FINISHED ∨ res = .error .VERSION_CONFLICT := by
  induction reqs with
  | nil => exact ⟨rfl, by simp [runMoves]⟩
  | cons r rest ih =>
    have hr : r.ver = some v0 := hreqs r (List.mem_cons_self _ _)
    have hfail := gameMove_fails_after room1 v0 r.uid r.pos hver hst
    have ihr := ih (fun q hq => hreqs q (List.mem_cons_of_mem _ hq))
    rcases hfail with hf | hf <;>
    · rw [runMoves, hr, hf]
      refine ⟨ihr.1, ?_⟩
      intro res hres
      rcases List.mem_cons.mp hres with h | h
      · subst h; simp
      · exact ihr.2 res h

/-- The status and turn left by the bot route's final update: `finished` with
no turn, or `in-progress` with the human to move. -/
theorem botFinalize_status_turn (game : BotGame) (nb : List Char) (nm : List BotMoveEntry)
    (ps bs : Char) (go : GameOverResult) :
    ((botFinalize game nb nm ps bs go).status = "finished" ∧
      (botFinalize game nb nm ps bs go).currentTurn = none) ∨
    ((botFinalize game nb nm ps bs go).status = "in-progress" ∧
      (botFinalize game nb nm ps bs go).currentTurn = some "player") := by
  dsimp only [botFinalize]
  split
  · left; exact ⟨rfl, rfl⟩
  · right; exact ⟨rfl, rfl⟩

/-- Everything an accepted bot move guarantees about the committed row. -/
theorem botMove_ok_spec (game : BotGame) (userId position : Nat) (clientVersion : Option Nat)
    (game1 : BotGame) (h : botMove game userId position clientVersion = .ok game1) :
    game1.version = game.version + 1 ∧
    ((game1.status = "finished" ∧ game1.currentTurn = none) ∨
      (game1.status = "in-progress" ∧ game1.currentTurn = some "player")) ∧
    (game1.moves = game.moves ++
        [⟨"player", (position : Int), game.playerSymbol, game.moves.length + 1⟩] ∨
      ∃ botPos botSym,
        game1.moves = game.moves ++
          [⟨"player", (position : Int), game.playerSymbol, game.moves.length + 1⟩,
            ⟨"bot", botPos, botSym, game.moves.length + 2⟩]) := by
  unfold botMove at h
  split at h
  case isFalse => cases h
  split at h; · cases h
  split at h
  case isFalse => cases h
  split at h; · cases h
  split at h
  case isFalse => cases h
  dsimp only [] at h
  split at h
  · rw [Except.ok.injEq] at h
    subst h
    exact ⟨rfl, botFinalize_status_turn _ _ _ _ _ _, Or.inl rfl⟩
  · rw [Except.ok.injEq] at h
    subst h
    refine ⟨rfl, botFinalize_status_turn _ _ _ _ _ _, Or.inr
      ⟨findBestMove (makeMove game.board position game.playerSymbol)
          (if game.playerSymbol = 'X' then 'O' else 'X') game.playerSymbol,
        if game.playerSymbol = 'X' then 'O' else 'X', ?_⟩⟩
    dsimp only [botFinalize]
    simp

/-- After a committed bot move, any further call carrying the old version
fails with `NOT_YOUR_GAME`, `GAME_FINISHED` or `VERSION_CONFLICT`. -/
theorem botMove_fails_after (game1 : BotGame) (v0 uid pos : Nat)
    (hver : game1.version ≠ v0)
    (hst : (game1.status = "finished" ∧ game1.currentTurn = none) ∨
      (game1.status = "in-progress" ∧ game1.currentTurn = some "player")) :
    botMove game1 uid pos (some v0) = .error .NOT_YOUR_GAME ∨
      botMove game1 uid pos (some v0) = .error .GAME_FINISHED ∨
      botMove game1 uid pos (some v0) = .error .VERSION_CONFLICT := by
  unfold botMove
  by_cases h1 : game1.userId = uid
  case neg => rw [if_neg h1]; left; rfl
  rw [if_pos h1]
  rcases hst with ⟨hs, _⟩ | ⟨hs, ht⟩
  · rw [hs, if_pos rfl]
    right; left; rfl
  · rw [hs, ht]
    rw [if_neg (by decide), if_pos rfl,
      if_pos (show versionMismatch game1.version (some v0) = true by
        simp [versionMismatch, hver])]
    right; right; rfl

/-- Claim C3, counterexample: player two leaves a concrete in-progress match;
the persisted row has status `finished`, winner player one and the seat
cleared, but `currentTurn` keeps its old value `player1` — it is not set to
`None` as the claim states (the forfeit update never touches it). -/
theorem claim3_counterexample :
    (leaveRoom (⟨"in-progress", some 1, some 2, some "player1",
        ['-', '-', '-', '-', '-', '-', '-', '-', '-'], none, false, 0, [], []⟩ : Room) 2).map
      (fun r => (r.status, r.winnerId, r.player2Id, r.currentTurn)) =
      some ("finished", some 1, none, some "player1") ∧
    (some "player1" : Option String) ≠ none :=
  ⟨rfl, by decide⟩

/-- Claim C3, amended: when player two leaves an in-progress match the
persisted row has status `finished`, winner player one and the player-two
slot cleared, but `currentTurn` (and `version`) keep their previous values —
the forfeit update does not set the turn to `None`. -/
theorem claim3_theorem (room : Room) (uid : Nat)
    (hstatus : room.status = "in-progress")
    (hp2 : room.player2Id = some uid)
    (hp1 : room.player1Id ≠ some uid) :
    ∃ room1, leaveRoom room uid = some room1 ∧
      room1.status = "finished" ∧ room1.winnerId = room.player1Id ∧
      room1.player2Id = none ∧ room1.currentTurn = room.currentTurn ∧
      room1.version = room.version := by
  unfold leaveRoom
  rw [if_neg (by simp [hp2]), if_neg hp1, if_pos hstatus]
  exact ⟨_, rfl, rfl, rfl, rfl, rfl, rfl⟩

/-- Claim C3, witness: the amended statement at a concrete in-progress room. -/
theorem claim3_witness :
    ∃ room1, leaveRoom (⟨"in-progress", some 1, some 2, some "player1",
        ['-', '-', '-', '-', '-', '-', '-', '-', '-'], none, false, 0, [], []⟩ : Room) 2 =
        some room1 ∧
      room1.status = "finished" ∧
      room1.winnerId = (⟨"in-progress", some 1, some 2, some "player1",
        ['-', '-', '-', '-', '-', '-', '-', '-', '-'], none, false, 0, [], []⟩ : Room).player1Id ∧
      room1.player2Id = none ∧
      room1.currentTurn = (⟨"in-progress", some 1, some 2, some "player1",
        ['-', '-', '-', '-', '-', '-', '-', '-', '-'], none, false, 0, [], []⟩ : Room).currentTurn ∧
      room1.version = (⟨"in-progress", some 1, some 2, some "player1",
        ['-', '-', '-', '-', '-', '-', '-', '-', '-'], none, false, 0, [], []⟩ : Room).version :=
  claim3_theorem _ 2 rfl rfl (by decide)

/-- Claim C4, counterexample: a request against a concrete bot game at
version 5 that both carries a stale `expectedVersion` (3) and comes from a
non-owner reports `NOT_YOUR_GAME`, not the `VERSION_CONFLICT` the claim
requires. -/
theorem claim4_counterexample :
    botMove (⟨7, ['-', '-', '-', '-', '-', '-', '-', '-', '-'], 'X', some "player",
        "in-progress", none, 5, []⟩ : BotGame) 99 0 (some 3) = .error .NOT_YOUR_GAME ∧
    BotError.NOT_YOUR_GAME ≠ BotError.VERSION_CONFLICT :=
  ⟨rfl, by decide⟩

/-- Claim C4, amended: the bot move route checks, in order, ownership
(`NOT_YOUR_GAME`), `GAME_FINISHED`, turn (`NOT_YOUR_TURN`),
`VERSION_CONFLICT`, and cell validity (`INVALID_MOVE`).  `AlreadyFinished`
does precede `VersionConflict` as claimed, but ownership and turn precede it
too, so a stale request that also fails ownership or turn reports
`NOT_YOUR_GAME`/`NOT_YOUR_TURN`, not `VERSION_CONFLICT`. -/
theorem claim4_theorem (game : BotGame) (userId position : Nat) (clientVersion : Option Nat) :
    (game.userId ≠ userId →
      botMove game userId position clientVersion = .error .NOT_YOUR_GAME) ∧
    (game.userId = userId → game.status = "finished" →
      botMove game userId position clientVersion = .error .GAME_FINISHED) ∧
    (game.userId = userId → game.status ≠ "finished" → game.currentTurn ≠ some "player" →
      botMove game userId position clientVersion = .error .NOT_YOUR_TURN) ∧
    (game.userId = userId → game.status ≠ "finished" → game.currentTurn = some "player" →
      versionMismatch game.version clientVersion = true →
      botMove game userId position clientVersion = .error .VERSION_CONFLICT) ∧
    (game.userId = userId → game.status ≠ "finished" → game.currentTurn = some "player" →
      versionMismatch game.version clientVersion = false →
      isValidMove game.board position = false →
      botMove game userId position clientVersion = .error .INVALID_MOVE) := by
  refine ⟨?_, ?_, ?_, ?_, ?_⟩
  · intro h1
    unfold botMove
    rw [if_neg h1]
  · intro h1 h2
    unfold botMove
    rw [if_pos h1, if_pos h2]
  · intro h1 h2 h3
    unfold botMove
    rw [if_pos h1, if_neg h2, if_neg h3]
  · intro h1 h2 h3 h4
    unfold botMove
    rw [if_pos h1, if_neg h2, if_pos h3, if_pos h4]
  · intro h1 h2 h3 h4 h5
    unfold botMove
    rw [if_pos h1, if_neg h2, if_pos h3, if_neg (by rw [h4]; decide),
      if_neg (by rw [h5]; decide)]

/-- Claim C4, witness: a stale-version request by the owner on their turn
does report `VERSION_CONFLICT`. -/
theorem claim4_witness :
    botMove (⟨7, ['-', '-', '-', '-', '-', '-', '-', '-', '-'], 'X', some "player",
        "in-progress", none, 5, []⟩ : BotGame) 7 0 (some 3) = .error .VERSION_CONFLICT :=
  (claim4_theorem _ 7 0 (some 3)).2.2.2.1 rfl (by decide) rfl (by decide)

/-- Claim C5, counterexample: a player-two join that starts the game (status
moves from `waiting` to `in-progress`) leaves `version` at 0 — the join
update does not increment the optimistic-lock counter as the claim states. -/
theorem claim5_counterexample :
    (joinRoom (createRoom 1) 2).status = "in-progress" ∧
    (joinRoom (createRoom 1) 2).player2Id = some 2 ∧
    (createRoom 1).version = 0 ∧
    (joinRoom (createRoom 1) 2).version = 0 :=
  ⟨rfl, rfl, rfl, rfl⟩

/-- Claim C5, amended: an accepted move (room or bot game) increments
`version` by exactly 1, while `join` and a non-deleting `leave` (including
the player-two forfeit) never change it; hence `version` never decreases
across any modelled operation. -/
theorem claim5_theorem :
    (∀ room userId position clientVersion room1,
      gameMove room userId position clientVersion = .ok room1 →
        room1.version = room.version + 1) ∧
    (∀ game userId position clientVersion game1,
      botMove game userId position clientVersion = .ok game1 →
        game1.version = game.version + 1) ∧
    (∀ room userId, (joinRoom room userId).version = room.version) ∧
    (∀ room userId room1, leaveRoom room userId = some room1 →
      room1.version = room.version) := by
  refine ⟨?_, ?_, ?_, ?_⟩
  · intro room uid pos cv room1 h
    obtain ⟨-, sym, -, -, hver, -, -⟩ := gameMove_ok_spec room uid pos cv room1 h
    exact hver
  · intro g uid pos cv g1 h
    exact (botMove_ok_spec g uid pos cv g1 h).1
  · intro room uid
    unfold joinRoom
    split
    · rfl
    · split
      · rfl
      · rfl
  · intro room uid room1 h
    unfold leaveRoom at h
    split at h
    · rw [Option.some.injEq] at h; subst h; rfl
    split at h
    · cases h
    split at h
    · rw [Option.some.injEq] at h; subst h; rfl
    · rw [Option.some.injEq] at h; subst h; rfl

/-- Claim C5, witness: one accepted room move at a concrete fresh match takes
`version` from 0 to 1. -/
theorem claim5_witness :
    gameMove (joinRoom (createRoom 1) 2) 1 4 (some 0) =
      .ok (⟨"in-progress", some 1, some 2, some "player2",
        ['-', '-', '-', '-', 'X', '-', '-', '-', '-'], none, false, 1, [],
        [⟨1, 4, 'X', 1⟩]⟩ : Room) ∧
    (⟨"in-progress", some 1, some 2, some "player2",
        ['-', '-', '-', '-', 'X', '-', '-', '-', '-'], none, false, 1, [],
        [⟨1, 4, 'X', 1⟩]⟩ : Room).version = (joinRoom (createRoom 1) 2).version + 1 :=
  ⟨rfl, claim5_theorem.1 _ 1 4 (some 0) _ rfl⟩

theorem runBotMoves_all_fail (reqs : List MoveReq) (game1 : BotGame) (v0 : Nat)
    (hver : game1.version ≠ v0)
    (hst : (game1.status = "finished" ∧ game1.currentTurn = none) ∨
      (game1.status = "in-progress" ∧ game1.currentTurn = some "player"))
    (hreqs : ∀ r ∈ reqs, r.ver = some v0) :
    (runBotMoves game1 reqs).1 = game1 ∧
      ∀ res ∈ (runBotMoves game1 reqs).2,
        res = .error .NOT_YOUR_GAME ∨ res = .error .GAME_FINISHED ∨
          res = .error .VERSION_CONFLICT := by
  induction reqs with
  | nil => exact ⟨rfl, by simp [runBotMoves]⟩
  | cons r rest ih =>
    have hr : r.ver = some v0 := hreqs r (List.mem_cons_self _ _)
    have hfail := botMove_fails_after game1 v0 r.uid r.pos hver hst
    have ihr := ih (fun q hq => hreqs q (List.mem_cons_of_mem _ hq))
    rcases hfail with hf | hf | hf <;>
    · rw [runBotMoves, hr, hf]
      refine ⟨ihr.1, ?_⟩
      intro res hres
      rcases List.mem_cons.mp hres with h | h
      · subst h; simp
      · exact ihr.2 res h

/-! ## Move-log and turn invariants (C9, C10) -/

theorem joinRoom_preserves (room : Room) (userId : Nat) :
    (joinRoom room userId).board = room.board ∧ (joinRoom room userId).moves = room.moves := by
  unfold joinRoom
  split
  · exact ⟨rfl, rfl⟩
  · split
    · exact ⟨rfl, rfl⟩
    · exact ⟨rfl, rfl⟩

theorem leaveRoom_preserves (room : Room) (userId : Nat) (room1 : Room)
    (h : leaveRoom room userId = some room1) :
    room1.board = room.board ∧ room1.moves = room.moves := by
  unfold leaveRoom at h
  split at h
  · rw [Option.some.injEq] at h; subst h; exact ⟨rfl, rfl⟩
  split at h
  · cases h
  split at h
  · rw [Option.some.injEq] at h; subst h; exact ⟨rfl, rfl⟩
  · rw [Option.some.injEq] at h; subst h; exact ⟨rfl, rfl⟩

theorem isValidMove_spec (board : List Char) (position : Nat)
    (h : isValidMove board position = true) :
    position < 9 ∧ board[position]? = some '-' := by
  unfold isValidMove at h
  split at h
  · cases h
  · rename_i hle
    exact ⟨by omega, by simpa using h⟩

theorem countMoves_makeMove (board : List Char) (p : Nat) (s : Char)
    (hp : board[p]? = some '-') (hs : (s != '-') = true) :
    countMoves (makeMove board p s) = countMoves board + 1 := by
  induction board generalizing p with
  | nil => simp at hp
  | cons c rest ih =>
    cases p with
    | zero =>
      have hc : c = '-' := by simpa using hp
      subst hc
      simp [countMoves, makeMove, List.filter_cons, hs]
    | succ p =>
      have hp' : rest[p]? = some '-' := by simpa using hp
      have h2 := ih p hp'
      unfold makeMove at h2
      show countMoves (c :: rest.set p s) = countMoves (c :: rest) + 1
      simp only [countMoves, List.filter_cons] at h2 ⊢
      split
      · simp only [List.length_cons]
        omega
      · exact h2

theorem range'_one_concat (n : Nat) :
    List.range' 1 (n + 1) = List.range' 1 n ++ [n + 1] := by
  rw [List.range'_concat]
  simp [Nat.add_comm]

theorem range'_one_concat2 (n : Nat) :
    List.range' 1 (n + 2) = List.range' 1 n ++ [n + 1, n + 2] := by
  have h1 : n + 2 = (n + 1) + 1 := rfl
  rw [h1, range'_one_concat, range'_one_concat]
  simp

/-- The C9 invariant for room matches: the number of occupied cells equals
the number of log entries, and the `moveOrder` column is exactly
`1, 2, …, n`. -/
theorem roomMoveLog_invariant (room : Room) (h : RoomReachable room) :
    countMoves room.board = room.moves.length ∧
    moveOrders room.moves = List.range' 1 room.moves.length := by
  induction h with
  | created userId => exact ⟨rfl, rfl⟩
  | joined room userId hr ih =>
    rw [(joinRoom_preserves room userId).1, (joinRoom_preserves room userId).2]
    exact ih
  | moved room userId position clientVersion room1 hr hok ih =>
    obtain ⟨hvalid, sym, hsym, hboard, hver, hmoves, hstatus⟩ :=
      gameMove_ok_spec room userId position clientVersion room1 hok
    have hp := isValidMove_spec room.board position hvalid
    have hs : (sym != '-') = true := by
      rcases hsym with h | h <;> simp [h]
    constructor
    · rw [hboard, hmoves, countMoves_makeMove room.board position sym hp.2 hs]
      simp [ih.1]
    · rw [hmoves]
      unfold moveOrders at ih ⊢
      rw [List.map_append, ih.2]
      simp only [List.map_cons, List.map_nil, List.length_append, List.length_cons,
        List.length_nil]
      rw [ih.1, range'_one_concat]
  | left room userId room1 hr hleft ih =>
    rw [(leaveRoom_preserves room userId room1 hleft).1,
      (leaveRoom_preserves room userId room1 hleft).2]
    exact ih

/-- The C9/C10 invariant for bot games: gapless 1-based move orders, and the
turn always `player` while in progress, `none` once finished. -/
theorem botGame_invariant (game : BotGame) (h : BotReachable game) :
    botMoveOrders game.moves = List.range' 1 game.moves.length ∧
    ((game.currentTurn = some "player" ∧ game.status = "in-progress") ∨
      (game.currentTurn = none ∧ game.status = "finished")) := by
  induction h with
  | created userId goFirst =>
    unfold botCreate
    split
    · exact ⟨rfl, Or.inl ⟨rfl, rfl⟩⟩
    · exact ⟨rfl, Or.inl ⟨rfl, rfl⟩⟩
  | moved game userId position clientVersion game1 hg hok ih =>
    obtain ⟨hver, hstate, hmoves⟩ := botMove_ok_spec game userId position clientVersion game1 hok
    constructor
    · rcases hmoves with hm | ⟨botPos, botSym, hm⟩
      · rw [hm]
        unfold botMoveOrders at ih ⊢
        rw [List.map_append, ih.1]
        have hlen : (game.moves ++ [(⟨"player", (position : Int), game.playerSymbol,
            game.moves.length + 1⟩ : BotMoveEntry)]).length = game.moves.length + 1 := by simp
        rw [hlen, range'_one_concat]
        simp
      · rw [hm]
        unfold botMoveOrders at ih ⊢
        rw [List.map_append, ih.1]
        have hlen : (game.moves ++ [(⟨"player", (position : Int), game.playerSymbol,
            game.moves.length + 1⟩ : BotMoveEntry),
            ⟨"bot", botPos, botSym, game.moves.length + 2⟩]).length =
            game.moves.length + 2 := by simp
        rw [hlen, range'_one_concat2]
        simp
    · rcases hstate with ⟨h1, h2⟩ | ⟨h1, h2⟩
      · right; exact ⟨h2, h1⟩
      · left; exact ⟨h2, h1⟩

/-- Claim C9: after any sequence of accepted operations, the move-log orders
form the gapless 1-based sequence `1, 2, …, n`, for room matches (where the
number of occupied cells also equals the number of log entries, so an
accepted move's entry gets `countMoves(board) + 1 = n + 1`) and for bot
games alike. -/
theorem claim9_theorem :
    (∀ room, RoomReachable room →
      moveOrders room.moves = List.range' 1 room.moves.length ∧
      countMoves room.board = room.moves.length) ∧
    (∀ game, BotReachable game →
      botMoveOrders game.moves = List.range' 1 game.moves.length) := by
  constructor
  · intro room h
    exact ⟨(roomMoveLog_invariant room h).2, (roomMoveLog_invariant room h).1⟩
  · intro game h
    exact (botGame_invariant game h).1

/-- Claim C9, witness: the invariant at a room after one accepted move and at
a bot game created with the bot moving first. -/
theorem claim9_witness :
    (moveOrders (⟨"in-progress", some 1, some 2, some "player2",
        ['-', '-', '-', '-', 'X', '-', '-', '-', '-'], none, false, 1, [],
        [⟨1, 4, 'X', 1⟩]⟩ : Room).moves =
      List.range' 1 (⟨"in-progress", some 1, some 2, some "player2",
        ['-', '-', '-', '-', 'X', '-', '-', '-', '-'], none, false, 1, [],
        [⟨1, 4, 'X', 1⟩]⟩ : Room).moves.length ∧
     countMoves (⟨"in-progress", some 1, some 2, some "player2",
        ['-', '-', '-', '-', 'X', '-', '-', '-', '-'], none, false, 1, [],
        [⟨1, 4, 'X', 1⟩]⟩ : Room).board =
      (⟨"in-progress", some 1, some 2, some "player2",
        ['-', '-', '-', '-', 'X', '-', '-', '-', '-'], none, false, 1, [],
        [⟨1, 4, 'X', 1⟩]⟩ : Room).moves.length) ∧
    botMoveOrders (botCreate 0 (some false)).moves =
      List.range' 1 (botCreate 0 (some false)).moves.length :=
  ⟨claim9_theorem.1 _ (RoomReachable.moved _ 1 4 (some 0) _
      (RoomReachable.joined _ 2 (RoomReachable.created 1)) rfl),
    claim9_theorem.2 _ (BotReachable.created 0 (some false))⟩

/-- Claim C10: in every reachable bot-game state — including one whose
opening move was played by the bot at creation — `currentTurn` is `player`
or `none`, never a bot turn, and it is `none` only when the game is
finished (the bot's reply is applied inside the same operation). -/
theorem claim10_theorem (game : BotGame) (h : BotReachable game) :
    (game.currentTurn = some "player" ∨ game.currentTurn = none) ∧
    (game.currentTurn = none → game.status = "finished") := by
  rcases (botGame_invariant game h).2 with ⟨h1, h2⟩ | ⟨h1, h2⟩
  · refine ⟨Or.inl h1, ?_⟩
    intro hn
    rw [h1] at hn
    cases hn
  · exact ⟨Or.inr h1, fun _ => h2⟩

/-- Claim C10, witness: the invariant at a bot game whose opening move the
bot played during creation. -/
theorem claim10_witness :
    ((botCreate 0 (some false)).currentTurn = some "player" ∨
      (botCreate 0 (some false)).currentTurn = none) ∧
    ((botCreate 0 (some false)).currentTurn = none →
      (botCreate 0 (some false)).status = "finished") :=
  claim10_theorem _ (BotReachable.created 0 (some false))

/-! ## Concurrent move batches (C1)

Concurrency is modelled by serialization: the persistence layer runs each
move transaction atomically against the current row, a failed transaction
rolls back (returns an error and no state), so a batch of N concurrent
calls is a serialized list of `gameMove`/`botMove` applications. -/

/-- A list of results that are all errors contains no committed transaction. -/
theorem countP_isOk_zero {e a : Type} (l : List (Except e a))
    (h : ∀ res ∈ l, ∃ err, res = .error err) : l.countP Except.isOk = 0 := by
  rw [List.countP_eq_zero]
  intro x hx
  obtain ⟨err, he⟩ := h x hx
  rw [he]
  simp [Except.isOk, Except.toBool]

/-- Complete case analysis of an arbitrary serialized batch of room-move
calls that all read the starting version: either every call fails its own
business rule against the unchanged row and nothing commits, or the batch
splits around the first individually acceptable call — every call before it
fails, it commits with `version + 1`, and every call after it fails with
`GAME_FINISHED` or `VERSION_CONFLICT` against the committed row. -/
theorem runMoves_dichotomy (room : Room) :
    ∀ (reqs : List MoveReq), (∀ r ∈ reqs, r.ver = some room.version) →
    ((runMoves room reqs).1 = room ∧
      (∀ res ∈ (runMoves room reqs).2, ∃ e, res = .error e) ∧
      (∀ r ∈ reqs, ∃ e, gameMove room r.uid r.pos r.ver = .error e)) ∨
    (∃ (pre : List MoveReq) (r0 : MoveReq) (post : List MoveReq) (room1 : Room),
      reqs = pre ++ r0 :: post ∧
      (∀ r ∈ pre, ∃ e, gameMove room r.uid r.pos r.ver = .error e) ∧
      gameMove room r0.uid r0.pos r0.ver = .ok room1 ∧
      room1.version = room.version + 1 ∧
      (runMoves room reqs).1 = room1 ∧
      (runMoves room reqs).2 =
        (pre.map fun r => gameMove room r.uid r.pos r.ver) ++
          .ok room1 :: (runMoves room1 post).2 ∧
      ∀ res ∈ (runMoves room1 post).2,
        res = .error .GAME_FINISHED ∨ res = .error .VERSION_CONFLICT) := by
  intro reqs
  induction reqs with
  | nil =>
    intro _
    left
    refine ⟨rfl, ?_, ?_⟩
    · intro res hres
      simp [runMoves] at hres
    · intro r hr
      exact absurd hr (List.not_mem_nil r)
  | cons r rest ih =>
    intro hreqs
    have hrests : ∀ q ∈ rest, q.ver = some room.version :=
      fun q hq => hreqs q (List.mem_cons_of_mem _ hq)
    cases hr : gameMove room r.uid r.pos r.ver with
    | error e =>
      rcases ih hrests with ⟨h1, h2, h3⟩ |
        ⟨pre, r0, post, room1, hsplit, hpre, hok, hver, h1, h2, hpost⟩
      · left
        refine ⟨?_, ?_, ?_⟩
        · simp only [runMoves, hr]
          exact h1
        · intro res hres
          simp only [runMoves, hr] at hres
          rcases List.mem_cons.mp hres with h | h
          · exact ⟨e, h⟩
          · exact h2 res h
        · intro q hq
          rcases List.mem_cons.mp hq with h | h
          · exact ⟨e, h ▸ hr⟩
          · exact h3 q h
      · right
        refine ⟨r :: pre, r0, post, room1, by rw [hsplit, List.cons_append],
          ?_, hok, hver, ?_, ?_, hpost⟩
        · intro q hq
          rcases List.mem_cons.mp hq with h | h
          · exact ⟨e, h ▸ hr⟩
          · exact hpre q h
        · simp only [runMoves, hr]
          exact h1
        · simp only [runMoves, hr, List.map_cons, List.cons_append]
          rw [h2]
    | ok room1 =>
      obtain ⟨-, sym, -, -, hver, -, hstatus⟩ :=
        gameMove_ok_spec room r.uid r.pos r.ver room1 hr
      have hall := runMoves_all_fail rest room1 room.version (by omega) hstatus hrests
      right
      refine ⟨[], r, rest, room1, rfl, ?_, hr, hver, ?_, ?_, hall.2⟩
      · intro q hq
        exact absurd hq (List.not_mem_nil q)
      · simp only [runMoves, hr]
        exact hall.1
      · simp only [runMoves, hr, List.map_nil, List.nil_append]

/-- The analogue of `runMoves_dichotomy` for bot games. -/
theorem runBotMoves_dichotomy (game : BotGame) :
    ∀ (reqs : List MoveReq), (∀ r ∈ reqs, r.ver = some game.version) →
    ((runBotMoves game reqs).1 = game ∧
      (∀ res ∈ (runBotMoves game reqs).2, ∃ e, res = .error e) ∧
      (∀ r ∈ reqs, ∃ e, botMove game r.uid r.pos r.ver = .error e)) ∨
    (∃ (pre : List MoveReq) (r0 : MoveReq) (post : List MoveReq) (game1 : BotGame),
      reqs = pre ++ r0 :: post ∧
      (∀ r ∈ pre, ∃ e, botMove game r.uid r.pos r.ver = .error e) ∧
      botMove game r0.uid r0.pos r0.ver = .ok game1 ∧
      game1.version = game.version + 1 ∧
      (runBotMoves game reqs).1 = game1 ∧
      (runBotMoves game reqs).2 =
        (pre.map fun r => botMove game r.uid r.pos r.ver) ++
          .ok game1 :: (runBotMoves game1 post).2 ∧
      ∀ res ∈ (runBotMoves game1 post).2,
        res = .error .NOT_YOUR_GAME ∨ res = .error .GAME_FINISHED ∨
          res = .error .VERSION_CONFLICT) := by
  intro reqs
  induction reqs with
  | nil =>
    intro _
    left
    refine ⟨rfl, ?_, ?_⟩
    · intro res hres
      simp [runBotMoves] at hres
    · intro r hr
      exact absurd hr (List.not_mem_nil r)
  | cons r rest ih =>
    intro hreqs
    have hrests : ∀ q ∈ rest, q.ver = some game.version :=
      fun q hq => hreqs q (List.mem_cons_of_mem _ hq)
    cases hr : botMove game r.uid r.pos r.ver with
    | error e =>
      rcases ih hrests with ⟨h1, h2, h3⟩ |
        ⟨pre, r0, post, game1, hsplit, hpre, hok, hver, h1, h2, hpost⟩
      · left
        refine ⟨?_, ?_, ?_⟩
        · simp only [runBotMoves, hr]
          exact h1
        · intro res hres
          simp only [runBotMoves, hr] at hres
          rcases List.mem_cons.mp hres with h | h
          · exact ⟨e, h⟩
          · exact h2 res h
        · intro q hq
          rcases List.mem_cons.mp hq with h | h
          · exact ⟨e, h ▸ hr⟩
          · exact h3 q h
      · right
        refine ⟨r :: pre, r0, post, game1, by rw [hsplit, List.cons_append],
          ?_, hok, hver, ?_, ?_, hpost⟩
        · intro q hq
          rcases List.mem_cons.mp hq with h | h
          · exact ⟨e, h ▸ hr⟩
          · exact hpre q h
        · simp only [runBotMoves, hr]
          exact h1
        · simp only [runBotMoves, hr, List.map_cons, List.cons_append]
          rw [h2]
    | ok game1 =>
      obtain ⟨hver, hstate, -⟩ := botMove_ok_spec game r.uid r.pos r.ver game1 hr
      have hall := runBotMoves_all_fail rest game1 game.version (by omega) hstate hrests
      right
      refine ⟨[], r, rest, game1, rfl, ?_, hr, hver, ?_, ?_, hall.2⟩
      · intro q hq
        exact absurd hq (List.not_mem_nil q)
      · simp only [runBotMoves, hr]
        exact hall.1
      · simp only [runBotMoves, hr, List.map_nil, List.nil_append]

/-- Claim C1, counterexample to the unrestricted claim: both calls of this
same-version batch come from player two while it is player one's turn, so
every call fails its business rule, no call commits, and the row — hence
its version — is unchanged, refuting "exactly one call commits and the
version advances by exactly 1" for arbitrary same-version batches. -/
theorem claim1_counterexample :
    (∀ r ∈ ([⟨2, 0, some 0⟩, ⟨2, 1, some 0⟩] : List MoveReq),
      r.ver = some (joinRoom (createRoom 1) 2).version) ∧
    (runMoves (joinRoom (createRoom 1) 2)
        [⟨2, 0, some 0⟩, ⟨2, 1, some 0⟩]).2.countP Except.isOk = 0 ∧
    (runMoves (joinRoom (createRoom 1) 2) [⟨2, 0, some 0⟩, ⟨2, 1, some 0⟩]).1 =
      joinRoom (createRoom 1) 2 := by
  refine ⟨by decide, by decide, by decide⟩

/-- Claim C1, amended: a serialized batch of N same-version move calls
commits at most once.  Precisely, for an arbitrary batch (in any
serialization order) whose calls all read the starting version: either no
call in the batch is individually acceptable — then every call fails with
`VersionConflict` or an earlier business-rule error, nothing commits, and
the row (hence `version`) is unchanged — or some call is acceptable, and
then exactly one call commits, the row advances to the committed state with
`version + 1`, and each of the other N − 1 calls fails with
`VersionConflict` or an earlier business-rule error, performing no persisted
side effect.  Stated for both match kinds; `runMoves_dichotomy` and
`runBotMoves_dichotomy` additionally locate the committing call as the first
acceptable one in serialization order. -/
theorem claim1_theorem :
    (∀ (room : Room) (reqs : List MoveReq),
      (∀ r ∈ reqs, r.ver = some room.version) →
      ((∀ r ∈ reqs, ∃ e, gameMove room r.uid r.pos r.ver = .error e) ∧
        (runMoves room reqs).1 = room ∧
        (runMoves room reqs).2.countP Except.isOk = 0) ∨
      (∃ room1, (runMoves room reqs).1 = room1 ∧
        room1.version = room.version + 1 ∧
        (runMoves room reqs).2.countP Except.isOk = 1 ∧
        ∀ res ∈ (runMoves room reqs).2, res = .ok room1 ∨ ∃ e, res = .error e)) ∧
    (∀ (game : BotGame) (reqs : List MoveReq),
      (∀ r ∈ reqs, r.ver = some game.version) →
      ((∀ r ∈ reqs, ∃ e, botMove game r.uid r.pos r.ver = .error e) ∧
        (runBotMoves game reqs).1 = game ∧
        (runBotMoves game reqs).2.countP Except.isOk = 0) ∨
      (∃ game1, (runBotMoves game reqs).1 = game1 ∧
        game1.version = game.version + 1 ∧
        (runBotMoves game reqs).2.countP Except.isOk = 1 ∧
        ∀ res ∈ (runBotMoves game reqs).2, res = .ok game1 ∨ ∃ e, res = .error e)) := by
  constructor
  · intro room reqs hreqs
    rcases runMoves_dichotomy room reqs hreqs with ⟨h1, h2, h3⟩ |
      ⟨pre, r0, post, room1, hsplit, hpre, hok, hver, h1, h2, hpost⟩
    · exact Or.inl ⟨h3, h1, countP_isOk_zero _ h2⟩
    · right
      refine ⟨room1, h1, hver, ?_, ?_⟩
      · rw [h2, List.countP_append, List.countP_cons]
        have hz1 : (pre.map fun r => gameMove room r.uid r.pos r.ver).countP
            Except.isOk = 0 := by
          apply countP_isOk_zero
          intro res hres
          obtain ⟨q, hq, hqe⟩ := List.mem_map.mp hres
          obtain ⟨e, he⟩ := hpre q hq
          exact ⟨e, by rw [← hqe]; exact he⟩
        have hz2 : ((runMoves room1 post).2).countP Except.isOk = 0 := by
          apply countP_isOk_zero
          intro res hres
          rcases hpost res hres with h | h
          · exact ⟨.GAME_FINISHED, h⟩
          · exact ⟨.VERSION_CONFLICT, h⟩
        rw [hz1, hz2]
        simp [Except.isOk, Except.toBool]
      · intro res hres
        rw [h2] at hres
        rcases List.mem_append.mp hres with h | h
        · obtain ⟨q, hq, hqe⟩ := List.mem_map.mp h
          obtain ⟨e, he⟩ := hpre q hq
          exact Or.inr ⟨e, by rw [← hqe]; exact he⟩
        · rcases List.mem_cons.mp h with h | h
          · exact Or.inl h
          · rcases hpost res h with h' | h'
            · exact Or.inr ⟨.GAME_FINISHED, h'⟩
            · exact Or.inr ⟨.VERSION_CONFLICT, h'⟩
  · intro game reqs hreqs
    rcases runBotMoves_dichotomy game reqs hreqs with ⟨h1, h2, h3⟩ |
      ⟨pre, r0, post, game1, hsplit, hpre, hok, hver, h1, h2, hpost⟩
    · exact Or.inl ⟨h3, h1, countP_isOk_zero _ h2⟩
    · right
      refine ⟨game1, h1, hver, ?_, ?_⟩
      · rw [h2, List.countP_append, List.countP_cons]
        have hz1 : (pre.map fun r => botMove game r.uid r.pos r.ver).countP
            Except.isOk = 0 := by
          apply countP_isOk_zero
          intro res hres
          obtain ⟨q, hq, hqe⟩ := List.mem_map.mp hres
          obtain ⟨e, he⟩ := hpre q hq
          exact ⟨e, by rw [← hqe]; exact he⟩
        have hz2 : ((runBotMoves game1 post).2).countP Except.isOk = 0 := by
          apply countP_isOk_zero
          intro res hres
          rcases hpost res hres with h | h | h
          · exact ⟨.NOT_YOUR_GAME, h⟩
          · exact ⟨.GAME_FINISHED, h⟩
          · exact ⟨.VERSION_CONFLICT, h⟩
        rw [hz1, hz2]
        simp [Except.isOk, Except.toBool]
      · intro res hres
        rw [h2] at hres
        rcases List.mem_append.mp hres with h | h
        · obtain ⟨q, hq, hqe⟩ := List.mem_map.mp h
          obtain ⟨e, he⟩ := hpre q hq
          exact Or.inr ⟨e, by rw [← hqe]; exact he⟩
        · rcases List.mem_cons.mp h with h | h
          · exact Or.inl h
          · rcases hpost res h with h' | h' | h'
            · exact Or.inr ⟨.NOT_YOUR_GAME, h'⟩
            · exact Or.inr ⟨.GAME_FINISHED, h'⟩
            · exact Or.inr ⟨.VERSION_CONFLICT, h'⟩

/-- Claim C1, witness: a concrete two-call same-version batch against a room
and one against a bot game; in each, exactly one call commits and the
version advances by exactly 1. -/
theorem claim1_witness :
    (runMoves (joinRoom (createRoom 1) 2) [⟨1, 4, some 0⟩, ⟨2, 0, some 0⟩]).2.countP
        Except.isOk = 1 ∧
      (runMoves (joinRoom (createRoom 1) 2) [⟨1, 4, some 0⟩, ⟨2, 0, some 0⟩]).1.version =
        (joinRoom (createRoom 1) 2).version + 1 ∧
      (runBotMoves (⟨7, ['X', 'X', '-', 'O', 'O', '-', '-', '-', '-'], 'X', some "player",
          "in-progress", none, 0, []⟩ : BotGame) [⟨7, 2, some 0⟩, ⟨7, 5, some 0⟩]).2.countP
        Except.isOk = 1 ∧
      (runBotMoves (⟨7, ['X', 'X', '-', 'O', 'O', '-', '-', '-', '-'], 'X', some "player",
          "in-progress", none, 0, []⟩ : BotGame) [⟨7, 2, some 0⟩, ⟨7, 5, some 0⟩]).1.version =
        (⟨7, ['X', 'X', '-', 'O', 'O', '-', '-', '-', '-'], 'X', some "player",
          "in-progress", none, 0, []⟩ : BotGame).version + 1 := by
  rcases claim1_theorem.1 (joinRoom (createRoom 1) 2) [⟨1, 4, some 0⟩, ⟨2, 0, some 0⟩]
      (by decide) with ⟨hall, -, -⟩ | ⟨room1, h1, hver, hcount, -⟩
  · exfalso
    obtain ⟨e, he⟩ := hall ⟨1, 4, some 0⟩ (List.mem_cons_self _ _)
    have hok0 : gameMove (joinRoom (createRoom 1) 2) 1 4 (some 0) =
        .ok (⟨"in-progress", some 1, some 2, some "player2",
          ['-', '-', '-', '-', 'X', '-', '-', '-', '-'], none, false, 1, [],
          [⟨1, 4, 'X', 1⟩]⟩ : Room) := by rfl
    exact Except.noConfusion (hok0.symm.trans he)
  · rcases claim1_theorem.2 (⟨7, ['X', 'X', '-', 'O', 'O', '-', '-', '-', '-'], 'X',
        some "player", "in-progress", none, 0, []⟩ : BotGame) [⟨7, 2, some 0⟩, ⟨7, 5, some 0⟩]
        (by decide) with ⟨hallb, -, -⟩ | ⟨game1, hb1, hbver, hbcount, -⟩
    · exfalso
      obtain ⟨e, he⟩ := hallb ⟨7, 2, some 0⟩ (List.mem_cons_self _ _)
      have hok0 : botMove (⟨7, ['X', 'X', '-', 'O', 'O', '-', '-', '-', '-'], 'X',
          some "player", "in-progress", none, 0, []⟩ : BotGame) 7 2 (some 0) =
          .ok (⟨7, ['X', 'X', 'X', 'O', 'O', '-', '-', '-', '-'], 'X', none, "finished",
            some "player", 1, [⟨"player", 2, 'X', 1⟩]⟩ : BotGame) := by rfl
      exact Except.noConfusion (hok0.symm.trans he)
    · exact ⟨hcount, by rw [h1]; exact hver, hbcount, by rw [hb1]; exact hbver⟩

/-! ## Alpha-beta pruning versus exhaustive minimax (C8)

The classical fail-soft argument: each loop result is exact inside the
current window and a sound bound outside it; with the full window
`(-INF, INF)` and values bounded well inside it, the pruned and exhaustive
searches coincide. -/

theorem approx_refl (lo hi x : Int) : approx lo hi x x :=
  ⟨fun _ => le_refl x, fun _ => le_refl x⟩

theorem foldl_max_split (l : List Int) (M x : Int) :
    List.foldl max (max M x) l = max x (List.foldl max M l) := by
  induction l generalizing M with
  | nil => exact max_comm M x
  | cons y rest ih =>
    show List.foldl max (max (max M x) y) rest = max x (List.foldl max (max M y) rest)
    rw [show max (max M x) y = max (max M y) x by
      rw [max_assoc, max_assoc, max_comm x y]]
    exact ih (max M y)

theorem foldl_min_split (l : List Int) (M x : Int) :
    List.foldl min (min M x) l = min x (List.foldl min M l) := by
  induction l generalizing M with
  | nil => exact min_comm M x
  | cons y rest ih =>
    show List.foldl min (min (min M x) y) rest = min x (List.foldl min (min M y) rest)
    rw [show min (min M x) y = min (min M y) x by
      rw [min_assoc, min_assoc, min_comm x y]]
    exact ih (min M y)

theorem maxLoop_approx (next : List Char → Int → Int → Int) (board : List Char) (bot : Char)
    (beta : Int) (P : List Char → Int)
    (hnext : ∀ (p : Nat) (a : Int), -INF ≤ a → a < beta →
      approx a beta (P (makeMove board p bot)) (next (makeMove board p bot) a beta)) :
    ∀ (ms : List Nat) (alpha M : Int), -INF ≤ alpha → alpha < beta → M ≤ alpha →
      approx alpha beta (List.foldl max M (ms.map fun p => P (makeMove board p bot)))
        (maxLoop next board bot beta ms alpha M) := by
  intro ms
  induction ms with
  | nil =>
    intro alpha M _ _ _
    exact approx_refl _ _ M
  | cons p rest ih =>
    intro alpha M ha hab hM
    have hs := hnext p alpha ha hab
    simp only [List.map_cons, List.foldl_cons]
    rw [foldl_max_split]
    simp only [maxLoop]
    by_cases hcut : beta ≤ max alpha (next (makeMove board p bot) alpha beta)
    · rw [if_pos hcut]
      constructor
      · intro haR
        have h1 : alpha < next (makeMove board p bot) alpha beta := by
          rcases max_cases M (next (makeMove board p bot) alpha beta) with ⟨he, h⟩ | ⟨he, h⟩ <;>
            omega
        have hPc := hs.1 h1
        have h2 : max M (next (makeMove board p bot) alpha beta) =
            next (makeMove board p bot) alpha beta := max_eq_right (by omega)
        rw [h2]
        exact le_trans hPc (le_max_left _ _)
      · intro hRb
        exfalso
        rcases max_cases alpha (next (makeMove board p bot) alpha beta) with ⟨he, h⟩ | ⟨he, h⟩ <;>
          rcases max_cases M (next (makeMove board p bot) alpha beta) with ⟨he2, h2⟩ | ⟨he2, h2⟩ <;>
          omega
    · push_neg at hcut
      rw [if_neg (not_le.mpr hcut)]
      have ha1 : -INF ≤ max alpha (next (makeMove board p bot) alpha beta) :=
        le_trans ha (le_max_left _ _)
      have hM1 : max M (next (makeMove board p bot) alpha beta) ≤
          max alpha (next (makeMove board p bot) alpha beta) :=
        max_le_max hM (le_refl _)
      have ihres := ih (max alpha (next (makeMove board p bot) alpha beta))
        (max M (next (makeMove board p bot) alpha beta)) ha1 hcut hM1
      rw [foldl_max_split] at ihres
      constructor
      · intro haR
        by_cases hcase : max alpha (next (makeMove board p bot) alpha beta) <
            maxLoop next board bot beta rest
              (max alpha (next (makeMove board p bot) alpha beta))
              (max M (next (makeMove board p bot) alpha beta))
        · have hRV := ihres.1 hcase
          have hsR : next (makeMove board p bot) alpha beta <
              maxLoop next board bot beta rest
                (max alpha (next (makeMove board p bot) alpha beta))
                (max M (next (makeMove board p bot) alpha beta)) := by
            rcases max_cases alpha (next (makeMove board p bot) alpha beta) with ⟨he, h⟩ | ⟨he, h⟩ <;>
              omega
          have hRF : maxLoop next board bot beta rest
              (max alpha (next (makeMove board p bot) alpha beta))
              (max M (next (makeMove board p bot) alpha beta)) ≤
              List.foldl max M (rest.map fun p => P (makeMove board p bot)) := by
            rcases max_cases (next (makeMove board p bot) alpha beta)
              (List.foldl max M (rest.map fun p => P (makeMove board p bot))) with
              ⟨he, h⟩ | ⟨he, h⟩ <;> omega
          exact le_trans hRF (le_max_right _ _)
        · push_neg at hcase
          have has : alpha < next (makeMove board p bot) alpha beta := by
            rcases max_cases alpha (next (makeMove board p bot) alpha beta) with ⟨he, h⟩ | ⟨he, h⟩ <;>
              omega
          have hRs : maxLoop next board bot beta rest
              (max alpha (next (makeMove board p bot) alpha beta))
              (max M (next (makeMove board p bot) alpha beta)) ≤
              next (makeMove board p bot) alpha beta := by
            rcases max_cases alpha (next (makeMove board p bot) alpha beta) with ⟨he, h⟩ | ⟨he, h⟩ <;>
              omega
          have hPc := hs.1 has
          exact le_trans (le_trans hRs hPc) (le_max_left _ _)
      · intro hRb
        have hVle := ihres.2 hRb
        have hsR : next (makeMove board p bot) alpha beta ≤
            maxLoop next board bot beta rest
              (max alpha (next (makeMove board p bot) alpha beta))
              (max M (next (makeMove board p bot) alpha beta)) :=
          le_trans (le_max_left _ _) hVle
        have hFR : List.foldl max M (rest.map fun p => P (makeMove board p bot)) ≤
            maxLoop next board bot beta rest
              (max alpha (next (makeMove board p bot) alpha beta))
              (max M (next (makeMove board p bot) alpha beta)) :=
          le_trans (le_max_right _ _) hVle
        have hPc : P (makeMove board p bot) ≤ next (makeMove board p bot) alpha beta :=
          hs.2 (by omega)
        exact max_le (by omega) hFR

theorem minLoop_approx (next : List Char → Int → Int → Int) (board : List Char) (player : Char)
    (alpha : Int) (P : List Char → Int)
    (hnext : ∀ (p : Nat) (b : Int), b ≤ INF → alpha < b →
      approx alpha b (P (makeMove board p player)) (next (makeMove board p player) alpha b)) :
    ∀ (ms : List Nat) (beta M : Int), beta ≤ INF → alpha < beta → beta ≤ M →
      approx alpha beta (List.foldl min M (ms.map fun p => P (makeMove board p player)))
        (minLoop next board player alpha ms beta M) := by
  intro ms
  induction ms with
  | nil =>
    intro beta M _ _ _
    exact approx_refl _ _ M
  | cons p rest ih =>
    intro beta M hb hab hM
    have hs := hnext p beta hb hab
    simp only [List.map_cons, List.foldl_cons]
    rw [foldl_min_split]
    simp only [minLoop]
    by_cases hcut : min beta (next (makeMove board p player) alpha beta) ≤ alpha
    · rw [if_pos hcut]
      constructor
      · intro haR
        exfalso
        rcases min_cases beta (next (makeMove board p player) alpha beta) with ⟨he, h⟩ | ⟨he, h⟩ <;>
          rcases min_cases M (next (makeMove board p player) alpha beta) with ⟨he2, h2⟩ | ⟨he2, h2⟩ <;>
          omega
      · intro hRb
        have h1 : next (makeMove board p player) alpha beta < beta := by
          rcases min_cases M (next (makeMove board p player) alpha beta) with ⟨he, h⟩ | ⟨he, h⟩ <;>
            omega
        have hPc := hs.2 h1
        have h2 : min M (next (makeMove board p player) alpha beta) =
            next (makeMove board p player) alpha beta := min_eq_right (by omega)
        rw [h2]
        exact le_trans (min_le_left _ _) hPc
    · push_neg at hcut
      rw [if_neg (not_le.mpr hcut)]
      have hb1 : min beta (next (makeMove board p player) alpha beta) ≤ INF :=
        le_trans (min_le_left _ _) hb
      have hM1 : min beta (next (makeMove board p player) alpha beta) ≤
          min M (next (makeMove board p player) alpha beta) :=
        min_le_min hM (le_refl _)
      have ihres := ih (min beta (next (makeMove board p player) alpha beta))
        (min M (next (makeMove board p player) alpha beta)) hb1 hcut hM1
      rw [foldl_min_split] at ihres
      constructor
      · intro haR
        have hVle := ihres.1 haR
        have hsR : minLoop next board player alpha rest
            (min beta (next (makeMove board p player) alpha beta))
            (min M (next (makeMove board p player) alpha beta)) ≤
            next (makeMove board p player) alpha beta :=
          le_trans hVle (min_le_left _ _)
        have hFR : minLoop next board player alpha rest
            (min beta (next (makeMove board p player) alpha beta))
            (min M (next (makeMove board p player) alpha beta)) ≤
            List.foldl min M (rest.map fun p => P (makeMove board p player)) :=
          le_trans hVle (min_le_right _ _)
        have hPc : next (makeMove board p player) alpha beta ≤ P (makeMove board p player) :=
          hs.1 (by omega)
        exact le_min (by omega) hFR
      · intro hRb
        by_cases hcase : minLoop next board player alpha rest
            (min beta (next (makeMove board p player) alpha beta))
            (min M (next (makeMove board p player) alpha beta)) <
            min beta (next (makeMove board p player) alpha beta)
        · have hRV := ihres.2 hcase
          have hsR : minLoop next board player alpha rest
              (min beta (next (makeMove board p player) alpha beta))
              (min M (next (makeMove board p player) alpha beta)) <
              next (makeMove board p player) alpha beta := by
            rcases min_cases beta (next (makeMove board p player) alpha beta) with ⟨he, h⟩ | ⟨he, h⟩ <;>
              omega
          have hFR : List.foldl min M (rest.map fun p => P (makeMove board p player)) ≤
              minLoop next board player alpha rest
                (min beta (next (makeMove board p player) alpha beta))
                (min M (next (makeMove board p player) alpha beta)) := by
            rcases min_cases (next (makeMove board p player) alpha beta)
              (List.foldl min M (rest.map fun p => P (makeMove board p player))) with
              ⟨he, h⟩ | ⟨he, h⟩ <;> omega
          exact le_trans (min_le_right _ _) hFR
        · push_neg at hcase
          have hsle : next (makeMove board p player) alpha beta ≤
              minLoop next board player alpha rest
                (min beta (next (makeMove board p player) alpha beta))
                (min M (next (makeMove board p player) alpha beta)) := by
            rcases min_cases beta (next (makeMove board p player) alpha beta) with ⟨he, h⟩ | ⟨he, h⟩ <;>
              omega
          have hsb : next (makeMove board p player) alpha beta < beta := by
            rcases min_cases beta (next (makeMove board p player) alpha beta) with ⟨he, h⟩ | ⟨he, h⟩ <;>
              omega
          have hPc := hs.2 hsb
          exact le_trans (min_le_left _ _) (by omega)

/-- Fail-soft correctness of the pruned search at every window. -/
theorem minimax_approx (fuel : Nat) (board : List Char) (depth : Int) (isMax : Bool)
    (bot player : Char) (alpha beta : Int)
    (ha : -INF ≤ alpha) (hb : beta ≤ INF) (hab : alpha < beta) :
    approx alpha beta (minimaxNoPruning fuel board depth isMax bot player)
      (minimax fuel board depth isMax alpha beta bot player) := by
  induction fuel generalizing board depth isMax alpha beta with
  | zero =>
    unfold minimax minimaxNoPruning
    split
    · exact approx_refl _ _ _
    split
    · exact approx_refl _ _ _
    split
    · exact approx_refl _ _ _
    · exact approx_refl _ _ _
  | succ fuel ih =>
    unfold minimax minimaxNoPruning
    split
    · exact approx_refl _ _ _
    split
    · exact approx_refl _ _ _
    split
    · exact approx_refl _ _ _
    · dsimp only []
      cases isMax
      · simp only [Bool.false_eq_true, if_false]
        exact minLoop_approx _ board player alpha
          (fun c => minimaxNoPruning fuel c (depth + 1) true bot player)
          (fun p b hbINF habp => ih (makeMove board p player) (depth + 1) true alpha b ha hbINF habp)
          (getAvailableMoves board) beta INF hb hab hb
      · simp only [if_true]
        exact maxLoop_approx _ board bot beta
          (fun c => minimaxNoPruning fuel c (depth + 1) false bot player)
          (fun p a haINF habp => ih (makeMove board p bot) (depth + 1) false a beta haINF hb habp)
          (getAvailableMoves board) alpha (-INF) ha hab ha

theorem chars_makeMove (board : List Char) (p : Nat) (s : Char)
    (hchars : ∀ c ∈ board, c = 'X' ∨ c = 'O' ∨ c = '-') (hs : s = 'X' ∨ s = 'O') :
    ∀ c ∈ makeMove board p s, c = 'X' ∨ c = 'O' ∨ c = '-' := by
  intro c hc
  rcases List.mem_or_eq_of_mem_set hc with h | h
  · exact hchars c h
  · subst h
    rcases hs with h | h
    · exact Or.inl h
    · exact Or.inr (Or.inl h)

/-- On a board over the real alphabet, a winner that is neither search symbol
is impossible, so the two winner tests failing means there is no winner. -/
theorem checkWinner_eq_none_of_not_syms (board : List Char) (bot player : Char)
    (hchars : ∀ c ∈ board, c = 'X' ∨ c = 'O' ∨ c = '-')
    (hsym : (bot = 'X' ∧ player = 'O') ∨ (bot = 'O' ∧ player = 'X'))
    (h1 : ¬ checkWinner board = some bot) (h2 : ¬ checkWinner board = some player) :
    checkWinner board = none := by
  cases hcw : checkWinner board with
  | none => rfl
  | some w =>
    exfalso
    obtain ⟨t, ht, hmono, hwd⟩ := checkWinner_eq_some_mono board w hcw
    have hwmem : w ∈ board := by
      obtain ⟨hc1, -, -⟩ := hmono
      obtain ⟨hlt, hg⟩ := List.getElem?_eq_some.mp hc1
      exact hg ▸ List.getElem_mem hlt
    rcases hchars w hwmem with h | h | h
    · rcases hsym with ⟨hb, hp⟩ | ⟨hb, hp⟩
      · exact h1 (by rw [hcw, h, hb])
      · exact h2 (by rw [hcw, h, hp])
    · rcases hsym with ⟨hb, hp⟩ | ⟨hb, hp⟩
      · exact h2 (by rw [hcw, h, hp])
      · exact h1 (by rw [hcw, h, hb])
    · exact hwd h

theorem getAvailableMoves_ne_nil (board : List Char) (hlen : board.length = 9)
    (hw : checkWinner board = none) (hd : isDraw board = false) :
    getAvailableMoves board ≠ [] := by
  unfold isDraw at hd
  rw [hw] at hd
  simp only [Option.isNone_none, Bool.and_true, Bool.not_eq_false'] at hd
  have hmem : '-' ∈ board := by
    simpa using hd
  obtain ⟨i, hi, hgi⟩ := List.mem_iff_getElem.mp hmem
  intro hnil
  have : i ∈ getAvailableMoves board := by
    rw [mem_getAvailableMoves]
    exact ⟨by omega, List.getElem?_eq_some.mpr ⟨hi, hgi⟩⟩
  rw [hnil] at this
  exact absurd this (List.not_mem_nil i)

theorem le_foldl_max (l : List Int) (a : Int) : a ≤ List.foldl max a l := by
  induction l generalizing a with
  | nil => exact le_refl a
  | cons x rest ih => exact le_trans (le_max_left a x) (ih (max a x))

theorem foldl_max_choice (l : List Int) (a : Int) :
    List.foldl max a l = a ∨ List.foldl max a l ∈ l := by
  induction l generalizing a with
  | nil => exact Or.inl rfl
  | cons x rest ih =>
    rw [List.foldl_cons]
    rcases ih (max a x) with h | h
    · rw [h]
      rcases max_choice a x with h2 | h2
      · exact Or.inl h2
      · exact Or.inr (by rw [h2]; exact List.mem_cons_self _ _)
    · exact Or.inr (List.mem_cons_of_mem _ h)

theorem foldl_min_le (l : List Int) (a : Int) : List.foldl min a l ≤ a := by
  induction l generalizing a with
  | nil => exact le_refl a
  | cons x rest ih => exact le_trans (ih (min a x)) (min_le_left a x)

theorem foldl_min_choice (l : List Int) (a : Int) :
    List.foldl min a l = a ∨ List.foldl min a l ∈ l := by
  induction l generalizing a with
  | nil => exact Or.inl rfl
  | cons x rest ih =>
    rw [List.foldl_cons]
    rcases ih (min a x) with h | h
    · rw [h]
      rcases min_choice a x with h2 | h2
      · exact Or.inl h2
      · exact Or.inr (by rw [h2]; exact List.mem_cons_self _ _)
    · exact Or.inr (List.mem_cons_of_mem _ h)

theorem mem_le_foldl_max (l : List Int) (a x : Int) (hx : x ∈ l) :
    x ≤ List.foldl max a l := by
  induction l generalizing a with
  | nil => cases hx
  | cons y rest ih =>
    rw [List.foldl_cons]
    rcases List.mem_cons.mp hx with h | h
    · subst h
      exact le_trans (le_max_right a x) (le_foldl_max rest (max a x))
    · exact ih (max a y) h

theorem foldl_min_le_mem (l : List Int) (a x : Int) (hx : x ∈ l) :
    List.foldl min a l ≤ x := by
  induction l generalizing a with
  | nil => cases hx
  | cons y rest ih =>
    rw [List.foldl_cons]
    rcases List.mem_cons.mp hx with h | h
    · subst h
      exact le_trans (foldl_min_le rest (min a x)) (min_le_right a x)
    · exact ih (min a y) h

/-- The exhaustive search's score is bounded by `10 + |depth| + fuel`, far
inside the `INF` sentinels. -/
theorem minimaxNoPruning_natAbs_le (fuel : Nat) (board : List Char) (depth : Int)
    (isMax : Bool) (bot player : Char) (hlen : board.length = 9)
    (hchars : ∀ c ∈ board, c = 'X' ∨ c = 'O' ∨ c = '-')
    (hsym : (bot = 'X' ∧ player = 'O') ∨ (bot = 'O' ∧ player = 'X')) :
    (minimaxNoPruning fuel board depth isMax bot player).natAbs ≤
      10 + depth.natAbs + fuel := by
  induction fuel generalizing board depth isMax with
  | zero =>
    unfold minimaxNoPruning
    split
    · omega
    split
    · omega
    split
    · omega
    · dsimp only []
      omega
  | succ fuel ih =>
    unfold minimaxNoPruning
    split
    · omega
    split
    · omega
    split
    · omega
    · rename_i h1 h2 h3
      have hcw : checkWinner board = none :=
        checkWinner_eq_none_of_not_syms board bot player hchars hsym h1 h2
      have hne : getAvailableMoves board ≠ [] :=
        getAvailableMoves_ne_nil board hlen hcw (by simpa using h3)
      have hbmem : bot = 'X' ∨ bot = 'O' := by
        rcases hsym with ⟨hb, -⟩ | ⟨hb, -⟩
        · exact Or.inl hb
        · exact Or.inr hb
      have hpmem : player = 'X' ∨ player = 'O' := by
        rcases hsym with ⟨-, hp⟩ | ⟨-, hp⟩
        · exact Or.inr hp
        · exact Or.inl hp
      have hINF : INF = 1000000 := rfl
      dsimp only []
      split
      · rcases foldl_max_choice ((getAvailableMoves board).map fun position =>
            minimaxNoPruning fuel (makeMove board position bot) (depth + 1) false bot player)
            (-INF) with h | h
        · obtain ⟨p0, hp0⟩ := List.exists_mem_of_ne_nil _ hne
          have hmem : minimaxNoPruning fuel (makeMove board p0 bot) (depth + 1) false bot player ∈
              (getAvailableMoves board).map fun position =>
                minimaxNoPruning fuel (makeMove board position bot) (depth + 1) false bot player :=
            List.mem_map_of_mem _ hp0
          have hle := mem_le_foldl_max _ (-INF) _ hmem
          rw [h] at hle
          rw [h]
          have hbd := ih (makeMove board p0 bot) (depth + 1) false
            (by rw [makeMove, List.length_set]; exact hlen)
            (chars_makeMove board p0 bot hchars hbmem)
          omega
        · obtain ⟨p0, hp0, hval⟩ := List.mem_map.mp h
          have hbd := ih (makeMove board p0 bot) (depth + 1) false
            (by rw [makeMove, List.length_set]; exact hlen)
            (chars_makeMove board p0 bot hchars hbmem)
          rw [hval] at hbd
          omega
      · rcases foldl_min_choice ((getAvailableMoves board).map fun position =>
            minimaxNoPruning fuel (makeMove board position player) (depth + 1) true bot player)
            INF with h | h
        · obtain ⟨p0, hp0⟩ := List.exists_mem_of_ne_nil _ hne
          have hmem : minimaxNoPruning fuel (makeMove board p0 player) (depth + 1) true bot player ∈
              (getAvailableMoves board).map fun position =>
                minimaxNoPruning fuel (makeMove board position player) (depth + 1) true bot player :=
            List.mem_map_of_mem _ hp0
          have hle := foldl_min_le_mem _ INF _ hmem
          rw [h] at hle
          rw [h]
          have hbd := ih (makeMove board p0 player) (depth + 1) true
            (by rw [makeMove, List.length_set]; exact hlen)
            (chars_makeMove board p0 player hchars hpmem)
          omega
        · obtain ⟨p0, hp0, hval⟩ := List.mem_map.mp h
          have hbd := ih (makeMove board p0 player) (depth + 1) true
            (by rw [makeMove, List.length_set]; exact hlen)
            (chars_makeMove board p0 player hchars hpmem)
          rw [hval] at hbd
          omega

/-- With the full window the pruned search agrees exactly with the
exhaustive one. -/
theorem minimax_eq_noPruning (fuel : Nat) (board : List Char) (depth : Int) (isMax : Bool)
    (bot player : Char) (hlen : board.length = 9)
    (hchars : ∀ c ∈ board, c = 'X' ∨ c = 'O' ∨ c = '-')
    (hsym : (bot = 'X' ∧ player = 'O') ∨ (bot = 'O' ∧ player = 'X'))
    (hd : depth.natAbs + fuel ≤ 100) :
    minimax fuel board depth isMax (-INF) INF bot player =
      minimaxNoPruning fuel board depth isMax bot player := by
  obtain ⟨h1, h2⟩ := minimax_approx fuel board depth isMax bot player (-INF) INF
    (le_refl _) (le_refl _) (by decide)
  have hbound := minimaxNoPruning_natAbs_le fuel board depth isMax bot player hlen hchars hsym
  have hINF : INF = 1000000 := rfl
  by_cases hA : -INF < minimax fuel board depth isMax (-INF) INF bot player
  · have hAP := h1 hA
    have hPA := h2 (by omega)
    omega
  · push_neg at hA
    have hPA := h2 (by omega)
    omega

/-- Claim C8: at the full window `(-∞, ∞)` the alpha-beta `minimax` returns
the same score as exhaustive minimax without pruning, for every 9-cell board
over the game alphabet, every realistic depth and either symbol assignment —
pruning never changes the value computed for any root move. -/
theorem claim8_theorem (board : List Char) (depth : Int) (isMaximizing : Bool)
    (botSymbol playerSymbol : Char) (hlen : board.length = 9)
    (hchars : ∀ c ∈ board, c = 'X' ∨ c = 'O' ∨ c = '-')
    (hsym : (botSymbol = 'X' ∧ playerSymbol = 'O') ∨ (botSymbol = 'O' ∧ playerSymbol = 'X'))
    (hdep : depth.natAbs ≤ 91) :
    minimax 9 board depth isMaximizing (-INF) INF botSymbol playerSymbol =
      minimaxNoPruning 9 board depth isMaximizing botSymbol playerSymbol :=
  minimax_eq_noPruning 9 board depth isMaximizing botSymbol playerSymbol hlen hchars hsym
    (by omega)

/-- Claim C8, witness: the equality at a concrete mid-game board and depth. -/
theorem claim8_witness :
    minimax 9 ['X', 'O', 'X', 'O', 'X', 'O', '-', '-', '-'] 3 true (-INF) INF 'X' 'O' =
      minimaxNoPruning 9 ['X', 'O', 'X', 'O', 'X', 'O', '-', '-', '-'] 3 true 'X' 'O' :=
  claim8_theorem ['X', 'O', 'X', 'O', 'X', 'O', '-', '-', '-'] 3 true 'X' 'O'
    (by decide) (by decide) (Or.inl ⟨rfl, rfl⟩) (by decide)

/-! ## Root-move selection (C7) -/

/-- What the root loop of `findBestMove` returns: either the initial best
move (when no score beats the initial best score), or the first
maximal-scoring move — a move `m` that strictly beats the initial score and
every earlier score, with every later score at most `m`'s. -/
theorem bestLoop_spec (board : List Char) (bot player : Char) :
    ∀ (ms : List Nat) (bm bs : Int),
      (bestLoop board bot player ms bm bs = bm ∧
        ∀ p ∈ ms, minimax 9 (makeMove board p bot) 0 false (-INF) INF bot player ≤ bs) ∨
      (∃ (pre : List Nat) (m : Nat) (post : List Nat), ms = pre ++ m :: post ∧
        bestLoop board bot player ms bm bs = (m : Int) ∧
        bs < minimax 9 (makeMove board m bot) 0 false (-INF) INF bot player ∧
        (∀ p ∈ pre, minimax 9 (makeMove board p bot) 0 false (-INF) INF bot player <
          minimax 9 (makeMove board m bot) 0 false (-INF) INF bot player) ∧
        (∀ p ∈ post, minimax 9 (makeMove board p bot) 0 false (-INF) INF bot player ≤
          minimax 9 (makeMove board m bot) 0 false (-INF) INF bot player)) := by
  intro ms
  induction ms with
  | nil =>
    intro bm bs
    left
    exact ⟨rfl, by simp⟩
  | cons p rest ih =>
    intro bm bs
    simp only [bestLoop]
    by_cases hlt : bs < minimax 9 (makeMove board p bot) 0 false (-INF) INF bot player
    · rw [if_pos hlt]
      rcases ih (p : Int) (minimax 9 (makeMove board p bot) 0 false (-INF) INF bot player)
        with ⟨heq, hall⟩ | ⟨pre, m, post, hms, heq, hgt, hpre, hpost⟩
      · right
        exact ⟨[], p, rest, rfl, heq, hlt, by simp, hall⟩
      · right
        refine ⟨p :: pre, m, post, by rw [hms, List.cons_append], heq, lt_trans hlt hgt, ?_, hpost⟩
        intro q hq
        rcases List.mem_cons.mp hq with h | h
        · exact h ▸ hgt
        · exact hpre q h
    · rw [if_neg hlt]
      push_neg at hlt
      rcases ih bm bs with ⟨heq, hall⟩ | ⟨pre, m, post, hms, heq, hgt, hpre, hpost⟩
      · left
        refine ⟨heq, ?_⟩
        intro q hq
        rcases List.mem_cons.mp hq with h | h
        · exact h ▸ hlt
        · exact hall q h
      · right
        refine ⟨p :: pre, m, post, by rw [hms, List.cons_append], heq, hgt, ?_, hpost⟩
        intro q hq
        rcases List.mem_cons.mp hq with h | h
        · subst h
          omega
        · exact hpre q h

/-- Claim C7: on a board where none of the shortcuts of `findBestMove`
applies (board not empty, not the 8-moves-with-center-free case, no
immediate win, no immediate block), the function returns the smallest cell
index among the legal moves whose `minimax` score is maximal: ties between
equally-scored moves go to the first (smallest) index in ascending
enumeration order. -/
theorem claim7_theorem (board : List Char) (botSymbol playerSymbol : Char)
    (hlen : board.length = 9)
    (hchars : ∀ c ∈ board, c = 'X' ∨ c = 'O' ∨ c = '-')
    (hsym : (botSymbol = 'X' ∧ playerSymbol = 'O') ∨ (botSymbol = 'O' ∧ playerSymbol = 'X'))
    (h0 : getAvailableMoves board ≠ [])
    (h9 : (getAvailableMoves board).length ≠ 9)
    (h8 : ¬((getAvailableMoves board).length = 8 ∧ board[4]? = some '-'))
    (hwin : ∀ p ∈ getAvailableMoves board,
      ¬(checkWinner (makeMove board p botSymbol) = some botSymbol))
    (hblock : ∀ p ∈ getAvailableMoves board,
      ¬(checkWinner (makeMove board p playerSymbol) = some playerSymbol)) :
    ∃ m : Nat, findBestMove board botSymbol playerSymbol = (m : Int) ∧
      m ∈ getAvailableMoves board ∧
      (∀ p ∈ getAvailableMoves board,
        minimax 9 (makeMove board p botSymbol) 0 false (-INF) INF botSymbol playerSymbol ≤
          minimax 9 (makeMove board m botSymbol) 0 false (-INF) INF botSymbol playerSymbol) ∧
      (∀ p ∈ getAvailableMoves board,
        minimax 9 (makeMove board p botSymbol) 0 false (-INF) INF botSymbol playerSymbol =
          minimax 9 (makeMove board m botSymbol) 0 false (-INF) INF botSymbol playerSymbol →
        m ≤ p) := by
  have hfind1 : (getAvailableMoves board).find? (fun position =>
      checkWinner (makeMove board position botSymbol) == some botSymbol) = none := by
    rw [List.find?_eq_none]
    intro x hx
    simpa using hwin x hx
  have hfind2 : (getAvailableMoves board).find? (fun position =>
      checkWinner (makeMove board position playerSymbol) == some playerSymbol) = none := by
    rw [List.find?_eq_none]
    intro x hx
    simpa using hblock x hx
  have hbm : findBestMove board botSymbol playerSymbol =
      bestLoop board botSymbol playerSymbol (getAvailableMoves board)
        (((getAvailableMoves board).headD 0 : Nat) : Int) (-INF) := by
    unfold findBestMove
    rw [if_neg (by simpa using fun hz => h0 (List.length_eq_zero.mp hz)),
      if_neg h9, if_neg h8, hfind1, hfind2]
  obtain ⟨a0, rest, hcons⟩ := List.exists_cons_of_ne_nil h0
  have hsorted : List.Sorted (fun a b => a < b) (getAvailableMoves board) :=
    (List.sorted_lt_range 9).filter _
  rcases bestLoop_spec board botSymbol playerSymbol (getAvailableMoves board)
      (((getAvailableMoves board).headD 0 : Nat) : Int) (-INF)
    with ⟨heq, hall⟩ | ⟨pre, m, post, hms, heq, hgt, hpre, hpost⟩
  · -- impossible: every score would be ≤ -INF, but scores are bounded
    exfalso
    have ha0 : a0 ∈ getAvailableMoves board := by rw [hcons]; exact List.mem_cons_self _ _
    have hle := hall a0 ha0
    have heqp := minimax_eq_noPruning 9 (makeMove board a0 botSymbol) 0 false
      botSymbol playerSymbol (by rw [makeMove, List.length_set]; exact hlen)
      (chars_makeMove board a0 botSymbol hchars (by
        rcases hsym with ⟨hb, -⟩ | ⟨hb, -⟩
        · exact Or.inl hb
        · exact Or.inr hb)) hsym (by omega)
    have hbd := minimaxNoPruning_natAbs_le 9 (makeMove board a0 botSymbol) 0 false
      botSymbol playerSymbol (by rw [makeMove, List.length_set]; exact hlen)
      (chars_makeMove board a0 botSymbol hchars (by
        rcases hsym with ⟨hb, -⟩ | ⟨hb, -⟩
        · exact Or.inl hb
        · exact Or.inr hb)) hsym
    rw [heqp] at hle
    have hINF : INF = 1000000 := rfl
    omega
  · refine ⟨m, by rw [hbm, heq], by rw [hms]; exact List.mem_append_right _ (List.mem_cons_self _ _), ?_, ?_⟩
    · intro p hp
      rw [hms] at hp
      rcases List.mem_append.mp hp with h | h
      · exact le_of_lt (hpre p h)
      · rcases List.mem_cons.mp h with h | h
        · exact h ▸ le_refl _
        · exact hpost p h
    · intro p hp hpeq
      rw [hms] at hp
      rcases List.mem_append.mp hp with h | h
      · exact absurd hpeq (by exact ne_of_lt (hpre p h))
      · rcases List.mem_cons.mp h with h | h
        · exact h ▸ le_refl m
        · have hsub : List.Sorted (fun a b => a < b) (m :: post) := by
            rw [hms] at hsorted
            exact hsorted.sublist (List.sublist_append_right pre (m :: post))
          exact le_of_lt ((List.sorted_cons.mp hsub).1 p h)

/-- Claim C7, witness: on `XXOOOXX--` with the bot as `O` no shortcut
applies, and the returned move is the smallest maximal-scoring legal cell. -/
theorem claim7_witness :
    ∃ m : Nat, findBestMove ['X', 'X', 'O', 'O', 'O', 'X', 'X', '-', '-'] 'O' 'X' = (m : Int) ∧
      m ∈ getAvailableMoves ['X', 'X', 'O', 'O', 'O', 'X', 'X', '-', '-'] ∧
      (∀ p ∈ getAvailableMoves ['X', 'X', 'O', 'O', 'O', 'X', 'X', '-', '-'],
        minimax 9 (makeMove ['X', 'X', 'O', 'O', 'O', 'X', 'X', '-', '-'] p 'O') 0 false
            (-INF) INF 'O' 'X' ≤
          minimax 9 (makeMove ['X', 'X', 'O', 'O', 'O', 'X', 'X', '-', '-'] m 'O') 0 false
            (-INF) INF 'O' 'X') ∧
      (∀ p ∈ getAvailableMoves ['X', 'X', 'O', 'O', 'O', 'X', 'X', '-', '-'],
        minimax 9 (makeMove ['X', 'X', 'O', 'O', 'O', 'X', 'X', '-', '-'] p 'O') 0 false
            (-INF) INF 'O' 'X' =
          minimax 9 (makeMove ['X', 'X', 'O', 'O', 'O', 'X', 'X', '-', '-'] m 'O') 0 false
            (-INF) INF 'O' 'X' →
        m ≤ p) :=
  claim7_theorem ['X', 'X', 'O', 'O', 'O', 'X', 'X', '-', '-'] 'O' 'X'
    (by decide) (by decide) (Or.inr ⟨rfl, rfl⟩) (by decide) (by decide) (by decide)
    (by decide) (by decide)

/-! ## Never-lose property of the search engine (C2)

The outcome function `value` (1, 0 or -1 for win, draw or loss of side `me` under
mutually optimal play) is related to the source's search in three steps:
counting lemmas about available moves, a sign correspondence between `value`
and the exhaustive minimax, and a soundness proof for the bitmask certificate
checker `noLoseFast` used to settle the two heuristic-shortcut openings. -/

theorem countP_not_add (l : List Nat) (p : Nat → Bool) :
    l.countP p + l.countP (fun a => !(p a)) = l.length := by
  induction l with
  | nil => rfl
  | cons x rest ih =>
    rw [List.countP_cons, List.countP_cons, List.length_cons]
    cases hx : p x <;> simp [hx] <;> omega

theorem countP_update (l : List Nat) (p : Nat) (f f' : Nat → Bool)
    (hnd : l.Nodup) (hp : p ∈ l)
    (hff : ∀ i ∈ l, i ≠ p → f' i = f i) (hfp : f p = true) (hfp' : f' p = false) :
    l.countP f' + 1 = l.countP f := by
  induction l with
  | nil => cases hp
  | cons x rest ih =>
    rw [List.countP_cons, List.countP_cons]
    rcases List.mem_cons.mp hp with hxp | hxp
    · subst hxp
      have hnot : p ∉ rest := (List.nodup_cons.mp hnd).1
      have hsame : rest.countP f' = rest.countP f := by
        apply List.countP_congr
        intro i hi
        rw [hff i (List.mem_cons_of_mem _ hi) (fun he => hnot (he ▸ hi))]
      rw [hsame, hfp, hfp']
      simp
    · have hxne : x ≠ p := by
        intro he
        exact (List.nodup_cons.mp hnd).1 (he ▸ hxp)
      rw [hff x (List.mem_cons_self _ _) hxne]
      have := ih (List.nodup_cons.mp hnd).2 hxp
        (fun i hi hne => hff i (List.mem_cons_of_mem _ hi) hne)
      omega

/-- Placing a real symbol on an available cell shrinks the available-move
list by exactly one. -/
theorem avail_set_length (board : List Char) (p : Nat) (s : Char)
    (hp : p ∈ getAvailableMoves board) (hs : s ≠ '-') :
    (getAvailableMoves (makeMove board p s)).length + 1 =
      (getAvailableMoves board).length := by
  obtain ⟨hp9, hcell⟩ := (mem_getAvailableMoves board p).mp hp
  have hlt : p < board.length := (List.getElem?_eq_some.mp hcell).1
  rw [getAvailableMoves, getAvailableMoves, ← List.countP_eq_length_filter,
    ← List.countP_eq_length_filter]
  apply countP_update (List.range 9) p _ _ (List.nodup_range 9)
    (List.mem_range.mpr hp9)
  · intro i _ hne
    show ((makeMove board p s)[i]? == some '-') = (board[i]? == some '-')
    rw [makeMove, List.getElem?_set_ne (fun he => hne he.symm)]
  · show (board[p]? == some '-') = true
    rw [hcell]
    rfl
  · show ((makeMove board p s)[p]? == some '-') = false
    rw [makeMove, List.getElem?_set_self hlt]
    simpa using hs

theorem avail_length_le (board : List Char) : (getAvailableMoves board).length ≤ 9 := by
  calc (getAvailableMoves board).length ≤ (List.range 9).length :=
        List.length_filter_le _ _
    _ = 9 := List.length_range 9

/-- `value` on a decided board: 1 when the winner is the distinguished side,
-1 otherwise. -/
theorem value_eq_of_winner (fuel : Nat) (board : List Char) (me opp w : Char) (tm : Bool)
    (h : checkWinner board = some w) :
    value fuel board me opp tm = if w = me then 1 else -1 := by
  cases fuel with
  | zero => rw [value, h]
  | succ f => rw [value, h]

theorem value_draw (fuel : Nat) (board : List Char) (me opp : Char) (tm : Bool)
    (hw : checkWinner board = none) (hd : isDraw board = true) :
    value fuel board me opp tm = 0 := by
  cases fuel with
  | zero => rw [value, hw]; simp [hd]
  | succ f => rw [value, hw]; simp [hd]

theorem value_zero_open (board : List Char) (me opp : Char) (tm : Bool)
    (hw : checkWinner board = none) (hd : isDraw board = false) :
    value 0 board me opp tm = 0 := by
  rw [value, hw]
  simp [hd]

theorem value_succ_max (fuel : Nat) (board : List Char) (me opp : Char)
    (hw : checkWinner board = none) (hd : isDraw board = false) :
    value (fuel + 1) board me opp true =
      ((getAvailableMoves board).map fun position =>
        value fuel (makeMove board position me) me opp false).foldl max (-1) := by
  rw [value, hw]
  simp [hd]

theorem value_succ_min (fuel : Nat) (board : List Char) (me opp : Char)
    (hw : checkWinner board = none) (hd : isDraw board = false) :
    value (fuel + 1) board me opp false =
      ((getAvailableMoves board).map fun position =>
        value fuel (makeMove board position opp) me opp true).foldl min 1 := by
  rw [value, hw]
  simp [hd]

theorem foldl_min_nonneg (l : List Int) (a : Int) (ha : 0 ≤ a)
    (h : ∀ x ∈ l, 0 ≤ x) : 0 ≤ List.foldl min a l := by
  induction l generalizing a with
  | nil => exact ha
  | cons x rest ih =>
    rw [List.foldl_cons]
    exact ih (min a x) (le_min ha (h x (List.mem_cons_self _ _)))
      (fun y hy => h y (List.mem_cons_of_mem _ hy))

/-- With enough fuel to search every empty cell, the exact fuel does not
matter: `value` computes the game outcome. -/
theorem value_fuel_congr (f₁ : Nat) :
    ∀ (f₂ : Nat) (board : List Char) (me opp : Char) (tm : Bool),
      board.length = 9 → me ≠ '-' → opp ≠ '-' →
      (getAvailableMoves board).length ≤ f₁ →
      (getAvailableMoves board).length ≤ f₂ →
      value f₁ board me opp tm = value f₂ board me opp tm := by
  induction f₁ with
  | zero =>
    intro f₂ board me opp tm hlen _ _ h1 _
    cases hcw : checkWinner board with
    | some w => rw [value_eq_of_winner f₂ board me opp w tm hcw,
        value_eq_of_winner 0 board me opp w tm hcw]
    | none =>
      cases hd : isDraw board with
      | true => rw [value_draw f₂ board me opp tm hcw hd, value_draw 0 board me opp tm hcw hd]
      | false =>
        exfalso
        apply getAvailableMoves_ne_nil board hlen hcw hd
        exact List.length_eq_zero.mp (by omega)
  | succ f ih =>
    intro f₂ board me opp tm hlen hme hopp h1 h2
    cases hcw : checkWinner board with
    | some w => rw [value_eq_of_winner f₂ board me opp w tm hcw,
        value_eq_of_winner (f + 1) board me opp w tm hcw]
    | none =>
      cases hd : isDraw board with
      | true => rw [value_draw f₂ board me opp tm hcw hd,
          value_draw (f + 1) board me opp tm hcw hd]
      | false =>
        have hne : getAvailableMoves board ≠ [] :=
          getAvailableMoves_ne_nil board hlen hcw hd
        have hpos : 1 ≤ (getAvailableMoves board).length :=
          Nat.one_le_iff_ne_zero.mpr (fun hz => hne (List.length_eq_zero.mp hz))
        cases f₂ with
        | zero => omega
        | succ g =>
          have key : ∀ (s : Char), s ≠ '-' → ∀ (tm' : Bool),
              ((getAvailableMoves board).map fun position =>
                value f (makeMove board position s) me opp tm') =
              ((getAvailableMoves board).map fun position =>
                value g (makeMove board position s) me opp tm') := by
            intro s hs tm'
            apply List.map_congr_left
            intro p hp
            have hlen' : (makeMove board p s).length = 9 := by
              rw [makeMove, List.length_set]; exact hlen
            have hshrink := avail_set_length board p s hp hs
            exact ih g (makeMove board p s) me opp tm' hlen' hme hopp
              (by omega) (by omega)
          cases tm with
          | true =>
            rw [value_succ_max f board me opp hcw hd,
              value_succ_max g board me opp hcw hd, key me hme false]
          | false =>
            rw [value_succ_min f board me opp hcw hd,
              value_succ_min g board me opp hcw hd, key opp hopp true]

theorem noPruning_win (fuel : Nat) (board : List Char) (depth : Int) (isMax : Bool)
    (bot player : Char) (h : checkWinner board = some bot) :
    minimaxNoPruning fuel board depth isMax bot player = 10 - depth := by
  cases fuel <;> rw [minimaxNoPruning, if_pos h]

theorem noPruning_lose (fuel : Nat) (board : List Char) (depth : Int) (isMax : Bool)
    (bot player : Char) (h : checkWinner board = some player) (hne : player ≠ bot) :
    minimaxNoPruning fuel board depth isMax bot player = depth - 10 := by
  cases fuel <;>
    rw [minimaxNoPruning, if_neg (by rw [h]; exact fun he => hne (Option.some_inj.mp he)),
      if_pos h]

theorem noPruning_draw (fuel : Nat) (board : List Char) (depth : Int) (isMax : Bool)
    (bot player : Char) (hw : checkWinner board = none) (hd : isDraw board = true) :
    minimaxNoPruning fuel board depth isMax bot player = 0 := by
  cases fuel <;>
    rw [minimaxNoPruning, if_neg (by simp [hw]), if_neg (by simp [hw]), if_pos hd]

theorem noPruning_zero_open (board : List Char) (depth : Int) (isMax : Bool)
    (bot player : Char) (hw : checkWinner board = none) (hd : isDraw board = false) :
    minimaxNoPruning 0 board depth isMax bot player = 0 := by
  rw [minimaxNoPruning, if_neg (by simp [hw]), if_neg (by simp [hw]),
    if_neg (by simp [hd])]

theorem noPruning_succ_max (fuel : Nat) (board : List Char) (depth : Int)
    (bot player : Char) (hw : checkWinner board = none) (hd : isDraw board = false) :
    minimaxNoPruning (fuel + 1) board depth true bot player =
      ((getAvailableMoves board).map fun position =>
        minimaxNoPruning fuel (makeMove board position bot) (depth + 1) false
          bot player).foldl max (-INF) := by
  rw [minimaxNoPruning, if_neg (by simp [hw]), if_neg (by simp [hw]),
    if_neg (by simp [hd]), if_pos rfl]

theorem noPruning_succ_min (fuel : Nat) (board : List Char) (depth : Int)
    (bot player : Char) (hw : checkWinner board = none) (hd : isDraw board = false) :
    minimaxNoPruning (fuel + 1) board depth false bot player =
      ((getAvailableMoves board).map fun position =>
        minimaxNoPruning fuel (makeMove board position player) (depth + 1) true
          bot player).foldl min INF := by
  rw [minimaxNoPruning, if_neg (by simp [hw]), if_neg (by simp [hw]),
    if_neg (by simp [hd]), if_neg Bool.false_ne_true]

theorem sign_trich (a : Int) :
    (0 < a ∧ a.sign = 1) ∨ (a = 0 ∧ a.sign = 0) ∨ (a < 0 ∧ a.sign = -1) := by
  rcases lt_trichotomy 0 a with h | h | h
  · exact Or.inl ⟨h, Int.sign_eq_one_iff_pos.mpr h⟩
  · exact Or.inr (Or.inl ⟨h.symm, by rw [← h]; rfl⟩)
  · exact Or.inr (Or.inr ⟨h, Int.sign_eq_neg_one_iff_neg.mpr h⟩)

theorem sign_mono_le {a b : Int} (h : a ≤ b) : a.sign ≤ b.sign := by
  rcases sign_trich a with ⟨h1, h2⟩ | ⟨h1, h2⟩ | ⟨h1, h2⟩ <;>
    rcases sign_trich b with ⟨g1, g2⟩ | ⟨g1, g2⟩ | ⟨g1, g2⟩ <;> omega

theorem sign_max (a b : Int) : (max a b).sign = max a.sign b.sign := by
  rcases le_total a b with h | h
  · rw [max_eq_right h, max_eq_right (sign_mono_le h)]
  · rw [max_eq_left h, max_eq_left (sign_mono_le h)]

theorem sign_min (a b : Int) : (min a b).sign = min a.sign b.sign := by
  rcases le_total a b with h | h
  · rw [min_eq_left h, min_eq_left (sign_mono_le h)]
  · rw [min_eq_right h, min_eq_right (sign_mono_le h)]

theorem sign_foldl_max (l : List Int) (a : Int) :
    (List.foldl max a l).sign = List.foldl max a.sign (l.map Int.sign) := by
  induction l generalizing a with
  | nil => rfl
  | cons x rest ih => rw [List.map_cons, List.foldl_cons, List.foldl_cons, ih, sign_max]

theorem sign_foldl_min (l : List Int) (a : Int) :
    (List.foldl min a l).sign = List.foldl min a.sign (l.map Int.sign) := by
  induction l generalizing a with
  | nil => rfl
  | cons x rest ih => rw [List.map_cons, List.foldl_cons, List.foldl_cons, ih, sign_min]

/-- On a board over the game alphabet a winner is one of the two playing
symbols. -/
theorem winner_is_sym (board : List Char) (me opp w : Char)
    (hchars : ∀ c ∈ board, c = 'X' ∨ c = 'O' ∨ c = '-')
    (hsym : (me = 'X' ∧ opp = 'O') ∨ (me = 'O' ∧ opp = 'X'))
    (hcw : checkWinner board = some w) : w = me ∨ w = opp := by
  obtain ⟨t, ht, hmono, hwd⟩ := checkWinner_eq_some_mono board w hcw
  have hwmem : w ∈ board := by
    obtain ⟨hc1, -, -⟩ := hmono
    obtain ⟨hlt, hg⟩ := List.getElem?_eq_some.mp hc1
    exact hg ▸ List.getElem_mem hlt
  rcases hchars w hwmem with h | h | h
  · rcases hsym with ⟨hb, hp⟩ | ⟨hb, hp⟩
    · exact Or.inl (h.trans hb.symm)
    · exact Or.inr (h.trans hp.symm)
  · rcases hsym with ⟨hb, hp⟩ | ⟨hb, hp⟩
    · exact Or.inr (h.trans hp.symm)
    · exact Or.inl (h.trans hb.symm)
  · exact absurd h hwd

/-- On a decided board the sign correspondence between `value` and the
exhaustive minimax holds for any fuel. -/
theorem value_sign_winner (fuel : Nat) (board : List Char) (depth : Int) (isMax : Bool)
    (me opp w : Char)
    (hsym : (me = 'X' ∧ opp = 'O') ∨ (me = 'O' ∧ opp = 'X'))
    (hcw : checkWinner board = some w) (hw : w = me ∨ w = opp) (hdep9 : depth ≤ 9) :
    value fuel board me opp isMax = (minimaxNoPruning fuel board depth isMax me opp).sign := by
  have hdist : me ≠ opp := by
    rcases hsym with ⟨h1, h2⟩ | ⟨h1, h2⟩ <;> rw [h1, h2] <;> decide
  rcases hw with hw | hw
  · rw [value_eq_of_winner fuel board me opp w isMax hcw, if_pos hw]
    rw [hw] at hcw
    rw [noPruning_win fuel board depth isMax me opp hcw]
    have h10 : (0 : Int) < 10 - depth := by omega
    exact (Int.sign_eq_one_iff_pos.mpr h10).symm
  · have hwm : w ≠ me := by rw [hw]; exact fun he => hdist he.symm
    rw [value_eq_of_winner fuel board me opp w isMax hcw, if_neg hwm]
    rw [hw] at hcw
    rw [noPruning_lose fuel board depth isMax me opp hcw (fun he => hdist he.symm)]
    have h10 : depth - 10 < 0 := by omega
    exact (Int.sign_eq_neg_one_iff_neg.mpr h10).symm

/-- `value` is the sign of the exhaustive minimax: the scores `10 - depth`
and `depth - 10` only encode who wins, and the depth bookkeeping keeps them
strictly positive and strictly negative respectively. -/
theorem value_eq_sign (fuel : Nat) :
    ∀ (board : List Char) (depth : Int) (isMax : Bool) (me opp : Char),
      board.length = 9 →
      (∀ c ∈ board, c = 'X' ∨ c = 'O' ∨ c = '-') →
      ((me = 'X' ∧ opp = 'O') ∨ (me = 'O' ∧ opp = 'X')) →
      0 ≤ depth →
      depth + ((getAvailableMoves board).length : Int) ≤ 9 →
      value fuel board me opp isMax =
        (minimaxNoPruning fuel board depth isMax me opp).sign := by
  induction fuel with
  | zero =>
    intro board depth isMax me opp hlen hchars hsym hdep hcnt
    cases hcw : checkWinner board with
    | some w =>
      exact value_sign_winner 0 board depth isMax me opp w hsym hcw
        (winner_is_sym board me opp w hchars hsym hcw) (by omega)
    | none =>
      cases hd : isDraw board with
      | true =>
        rw [value_draw 0 board me opp isMax hcw hd,
          noPruning_draw 0 board depth isMax me opp hcw hd]
        rfl
      | false =>
        rw [value_zero_open board me opp isMax hcw hd,
          noPruning_zero_open board depth isMax me opp hcw hd]
        rfl
  | succ f ih =>
    intro board depth isMax me opp hlen hchars hsym hdep hcnt
    have hme : me ≠ '-' := by
      rcases hsym with ⟨h1, -⟩ | ⟨h1, -⟩ <;> rw [h1] <;> decide
    have hopp : opp ≠ '-' := by
      rcases hsym with ⟨-, h2⟩ | ⟨-, h2⟩ <;> rw [h2] <;> decide
    have hmemme : me = 'X' ∨ me = 'O' := by
      rcases hsym with ⟨h1, -⟩ | ⟨h1, -⟩
      · exact Or.inl h1
      · exact Or.inr h1
    have hmemopp : opp = 'X' ∨ opp = 'O' := by
      rcases hsym with ⟨-, h2⟩ | ⟨-, h2⟩
      · exact Or.inr h2
      · exact Or.inl h2
    cases hcw : checkWinner board with
    | some w =>
      exact value_sign_winner (f + 1) board depth isMax me opp w hsym hcw
        (winner_is_sym board me opp w hchars hsym hcw) (by omega)
    | none =>
      cases hd : isDraw board with
      | true =>
        rw [value_draw (f + 1) board me opp isMax hcw hd,
          noPruning_draw (f + 1) board depth isMax me opp hcw hd]
        rfl
      | false =>
        cases isMax with
        | true =>
          rw [value_succ_max f board me opp hcw hd,
            noPruning_succ_max f board depth me opp hcw hd,
            sign_foldl_max, List.map_map]
          rw [show ((-INF : Int)).sign = -1 from by decide]
          have hmapeq : ((getAvailableMoves board).map fun position =>
              value f (makeMove board position me) me opp false) =
              (getAvailableMoves board).map (Int.sign ∘ fun position =>
                minimaxNoPruning f (makeMove board position me) (depth + 1) false me opp) := by
            apply List.map_congr_left
            intro p hp
            show value f (makeMove board p me) me opp false =
              (minimaxNoPruning f (makeMove board p me) (depth + 1) false me opp).sign
            have hlen' : (makeMove board p me).length = 9 := by
              rw [makeMove, List.length_set]; exact hlen
            have hshrink := avail_set_length board p me hp hme
            exact ih (makeMove board p me) (depth + 1) false me opp hlen'
              (chars_makeMove board p me hchars hmemme) hsym (by omega) (by omega)
          rw [hmapeq]
        | false =>
          rw [value_succ_min f board me opp hcw hd,
            noPruning_succ_min f board depth me opp hcw hd,
            sign_foldl_min, List.map_map]
          rw [show (INF : Int).sign = 1 from by decide]
          have hmapeq : ((getAvailableMoves board).map fun position =>
              value f (makeMove board position opp) me opp true) =
              (getAvailableMoves board).map (Int.sign ∘ fun position =>
                minimaxNoPruning f (makeMove board position opp) (depth + 1) true me opp) := by
            apply List.map_congr_left
            intro p hp
            show value f (makeMove board p opp) me opp true =
              (minimaxNoPruning f (makeMove board p opp) (depth + 1) true me opp).sign
            have hlen' : (makeMove board p opp).length = 9 := by
              rw [makeMove, List.length_set]; exact hlen
            have hshrink := avail_set_length board p opp hp hopp
            exact ih (makeMove board p opp) (depth + 1) true me opp hlen'
              (chars_makeMove board p opp hchars hmemopp) hsym (by omega) (by omega)
          rw [hmapeq]

theorem symMask_testBit (board : List Char) (s : Char) :
    ∀ i, (symMask board s).testBit i = (board[i]? == some s) := by
  induction board with
  | nil =>
    intro i
    show (0 : Nat).testBit i = (([] : List Char)[i]? == some s)
    rw [Nat.zero_testBit]
    rfl
  | cons c rest ih =>
    intro i
    cases i with
    | zero =>
      show (Nat.bit (c == s) (symMask rest s)).testBit 0 = ((c :: rest)[0]? == some s)
      rw [Nat.testBit_bit_zero, List.getElem?_cons_zero]
      rfl
    | succ n =>
      show (Nat.bit (c == s) (symMask rest s)).testBit (n + 1) = ((c :: rest)[n + 1]? == some s)
      rw [Nat.testBit_bit_succ, List.getElem?_cons_succ]
      exact ih n

theorem maskOfTriple_testBit (t : Nat × Nat × Nat) (i : Nat) :
    (maskOfTriple t).testBit i =
      (decide (t.1 = i) || decide (t.2.1 = i) || decide (t.2.2 = i)) := by
  rw [maskOfTriple, Nat.testBit_or, Nat.testBit_or, Nat.one_shiftLeft, Nat.one_shiftLeft,
    Nat.one_shiftLeft, Nat.testBit_two_pow, Nat.testBit_two_pow, Nat.testBit_two_pow]

theorem WIN_MASKS_eq : WIN_MASKS = WINNING_COMBINATIONS.map maskOfTriple := by decide

theorem any_map_comp {α β : Type} (l : List α) (f : α → β) (p : β → Bool) :
    (l.map f).any p = l.any (p ∘ f) := by
  induction l with
  | nil => rfl
  | cons x rest ih => rw [List.map_cons, List.any_cons, List.any_cons, ih]; rfl

/-- The bitmask winner test recognises exactly the monochromatic triples. -/
theorem winsMask_symMask_iff (board : List Char) (s : Char) :
    winsMask (symMask board s) = true ↔
      ∃ t ∈ WINNING_COMBINATIONS, monoTriple board t s := by
  rw [winsMask, WIN_MASKS_eq, any_map_comp, List.any_eq_true]
  constructor
  · rintro ⟨t, ht, hb⟩
    have heq : symMask board s &&& maskOfTriple t = maskOfTriple t := by simpa using hb
    have cell : ∀ j, (maskOfTriple t).testBit j = true → board[j]? = some s := by
      intro j hj
      have hc := congrArg (fun m => m.testBit j) heq
      simp only [Nat.testBit_and, hj, Bool.and_true] at hc
      rw [symMask_testBit] at hc
      simpa using hc
    refine ⟨t, ht, ?_, ?_, ?_⟩
    · exact cell t.1 (by rw [maskOfTriple_testBit]; simp)
    · exact cell t.2.1 (by rw [maskOfTriple_testBit]; simp)
    · exact cell t.2.2 (by rw [maskOfTriple_testBit]; simp)
  · rintro ⟨t, ht, h1, h2, h3⟩
    refine ⟨t, ht, ?_⟩
    show (symMask board s &&& maskOfTriple t == maskOfTriple t) = true
    have heq : symMask board s &&& maskOfTriple t = maskOfTriple t := by
      apply Nat.eq_of_testBit_eq
      intro j
      rw [Nat.testBit_and]
      cases hj : (maskOfTriple t).testBit j with
      | false => simp
      | true =>
        rw [Bool.and_true]
        rw [maskOfTriple_testBit] at hj
        rw [symMask_testBit]
        rcases (by simpa using hj : (t.1 = j ∨ t.2.1 = j) ∨ t.2.2 = j) with (hj' | hj') | hj'
        · rw [← hj', h1]; simp
        · rw [← hj', h2]; simp
        · rw [← hj', h3]; simp
    simp [heq]

/-- The union mask is the full board 511 exactly when no cell is free. -/
theorem ormask_full_iff (board : List Char) (me opp : Char)
    (hlen : board.length = 9)
    (hchars : ∀ c ∈ board, c = 'X' ∨ c = 'O' ∨ c = '-')
    (hsym : (me = 'X' ∧ opp = 'O') ∨ (me = 'O' ∧ opp = 'X')) :
    (symMask board me ||| symMask board opp = 511) ↔ board.contains '-' = false := by
  have h511 : ∀ j, (511 : Nat).testBit j = decide (j < 9) := by
    intro j
    rw [show (511 : Nat) = 2 ^ 9 - 1 from rfl, Nat.testBit_two_pow_sub_one]
  constructor
  · intro h
    cases hcont : board.contains '-' with
    | false => rfl
    | true =>
      exfalso
      have hmem : '-' ∈ board := by simpa using hcont
      obtain ⟨i, hi, hgi⟩ := List.mem_iff_getElem.mp hmem
      have hbit := congrArg (fun m => m.testBit i) h
      simp only [Nat.testBit_or, symMask_testBit, h511] at hbit
      have hcell : board[i]? = some '-' := List.getElem?_eq_some.mpr ⟨hi, hgi⟩
      rw [hcell] at hbit
      have ht : decide (i < 9) = true := by simp; omega
      rw [ht] at hbit
      rcases hsym with ⟨rfl, rfl⟩ | ⟨rfl, rfl⟩ <;> exact absurd hbit (by decide)
  · intro hcont
    have hnmem : ¬ '-' ∈ board := by simpa using hcont
    apply Nat.eq_of_testBit_eq
    intro j
    rw [Nat.testBit_or, symMask_testBit, symMask_testBit, h511]
    by_cases hj : j < 9
    · have hjlt : j < board.length := by omega
      have hcell : board[j]? = some board[j] := List.getElem?_eq_getElem hjlt
      have hcmem : board[j] ∈ board := List.getElem_mem hjlt
      have ht : decide (j < 9) = true := by simp [hj]
      rw [hcell, ht]
      rcases hchars _ hcmem with hc | hc | hc
      · rw [hc]; rcases hsym with ⟨rfl, rfl⟩ | ⟨rfl, rfl⟩ <;> decide
      · rw [hc]; rcases hsym with ⟨rfl, rfl⟩ | ⟨rfl, rfl⟩ <;> decide
      · exact absurd (hc ▸ hcmem) hnmem
    · have hge : board.length ≤ j := by omega
      have ht : decide (j < 9) = false := by simp [hj]
      rw [List.getElem?_eq_none hge, ht]
      rcases hsym with ⟨rfl, rfl⟩ | ⟨rfl, rfl⟩ <;> decide

/-- Placing `s` at a live cell sets exactly that bit of `s`'s mask. -/
theorem symMask_set_self (board : List Char) (p : Nat) (s : Char) (hp : p < board.length) :
    symMask (makeMove board p s) s = symMask board s ||| 1 <<< p := by
  apply Nat.eq_of_testBit_eq
  intro j
  rw [symMask_testBit, Nat.testBit_or, symMask_testBit, Nat.one_shiftLeft,
    Nat.testBit_two_pow]
  by_cases hj : p = j
  · subst hj
    rw [makeMove, List.getElem?_set_self hp]
    simp
  · rw [makeMove, List.getElem?_set_ne hj]
    simp [hj]

/-- Placing `s` leaves the other symbol's mask unchanged when the cell did
not hold that symbol. -/
theorem symMask_set_other (board : List Char) (p : Nat) (s w : Char)
    (hws : w ≠ s) (hcell : board[p]? ≠ some w) :
    symMask (makeMove board p s) w = symMask board w := by
  apply Nat.eq_of_testBit_eq
  intro j
  rw [symMask_testBit, symMask_testBit]
  by_cases hj : p = j
  · subst hj
    by_cases hlt : p < board.length
    · rw [makeMove, List.getElem?_set_self hlt]
      have hs1 : (some s == some w) = false := by simp [Ne.symm hws]
      have hs2 : (board[p]? == some w) = false := by simpa using hcell
      rw [hs1, hs2]
    · rw [makeMove, List.getElem?_eq_none (by rw [List.length_set]; omega),
        List.getElem?_eq_none (by omega)]
  · rw [makeMove, List.getElem?_set_ne hj]

theorem symMask_blank (n : Nat) (s : Char) (hs : s ≠ '-') :
    symMask (List.replicate n '-') s = 0 := by
  induction n with
  | zero => rfl
  | succ m ih =>
    rw [List.replicate_succ]
    show Nat.bit ('-' == s) (symMask (List.replicate m '-') s) = 0
    rw [ih, show ('-' == s) = false from by simp [Ne.symm hs]]
    rfl

/-- The mask-level free-cell enumeration inside `noLoseFast` is exactly
`getAvailableMoves`. -/
theorem fast_avail_eq (board : List Char) (me opp : Char)
    (hlen : board.length = 9)
    (hchars : ∀ c ∈ board, c = 'X' ∨ c = 'O' ∨ c = '-')
    (hsym : (me = 'X' ∧ opp = 'O') ∨ (me = 'O' ∧ opp = 'X')) :
    ((List.range 9).filter fun i =>
        (symMask board me ||| symMask board opp) >>> i &&& 1 == 0) =
      getAvailableMoves board := by
  rw [getAvailableMoves]
  apply List.filter_congr
  intro i hi
  have hi9 : i < 9 := List.mem_range.mp hi
  have hlt : i < board.length := by omega
  have hcell : board[i]? = some board[i] := List.getElem?_eq_getElem hlt
  have hnotbit : ((symMask board me ||| symMask board opp) >>> i &&& 1 == 0) =
      !(symMask board me ||| symMask board opp).testBit i := by
    rw [Nat.and_one_is_mod, Nat.shiftRight_eq_div_pow, Nat.testBit_to_div_mod]
    rcases Nat.mod_two_eq_zero_or_one ((symMask board me ||| symMask board opp) / 2 ^ i)
      with h | h <;> simp [h]
  rw [hnotbit, Nat.testBit_or, symMask_testBit, symMask_testBit, hcell]
  have hcmem : board[i] ∈ board := List.getElem_mem hlt
  rcases hchars _ hcmem with hc | hc | hc <;> rw [hc] <;>
    rcases hsym with ⟨rfl, rfl⟩ | ⟨rfl, rfl⟩ <;> decide

/-- A side whose mask already holds a triple has not lost: it is the
recorded winner (the exclusion hypothesis rules out a triple of the other
side being found first). -/
theorem noLose_terminal (fuel : Nat) (board : List Char) (me opp : Char) (tm : Bool)
    (hlen : board.length = 9)
    (hchars : ∀ c ∈ board, c = 'X' ∨ c = 'O' ∨ c = '-')
    (hsym : (me = 'X' ∧ opp = 'O') ∨ (me = 'O' ∧ opp = 'X'))
    (hmono : ¬(winsMask (symMask board me) = true ∧ winsMask (symMask board opp) = true))
    (hwm : winsMask (symMask board me) = true) :
    0 ≤ value fuel board me opp tm := by
  obtain ⟨t, ht, hmonoT⟩ := (winsMask_symMask_iff board me).mp hwm
  have hme : me ≠ '-' := by
    rcases hsym with ⟨h1, -⟩ | ⟨h1, -⟩ <;> rw [h1] <;> decide
  cases hcw : checkWinner board with
  | none => exact absurd hmonoT (checkWinner_none_no_mono board t me hlen ht hcw hme)
  | some w =>
    rcases winner_is_sym board me opp w hchars hsym hcw with hw | hw
    · rw [value_eq_of_winner fuel board me opp w tm hcw, if_pos hw]
      norm_num
    · exfalso
      obtain ⟨t', ht', hmonoT', -⟩ := checkWinner_eq_some_mono board w hcw
      exact hmono ⟨hwm, (winsMask_symMask_iff board opp).mpr ⟨t', ht', hw ▸ hmonoT'⟩⟩

/-- Soundness of the bitmask certificate: if `noLoseFast` accepts the
position (for boards without a double triple), the game value for `me` is
non-negative — `me` does not lose under optimal play. -/
theorem noLoseFast_sound (fuel : Nat) :
    ∀ (board : List Char) (me opp : Char) (tm : Bool),
      board.length = 9 →
      (∀ c ∈ board, c = 'X' ∨ c = 'O' ∨ c = '-') →
      ((me = 'X' ∧ opp = 'O') ∨ (me = 'O' ∧ opp = 'X')) →
      ¬(winsMask (symMask board me) = true ∧ winsMask (symMask board opp) = true) →
      noLoseFast fuel (symMask board me) (symMask board opp) tm = true →
      0 ≤ value fuel board me opp tm := by
  induction fuel with
  | zero =>
    intro board me opp tm hlen hchars hsym hmono hfast
    by_cases hwm : winsMask (symMask board me) = true
    · exact noLose_terminal 0 board me opp tm hlen hchars hsym hmono hwm
    · by_cases hwo : winsMask (symMask board opp) = true
      · rw [noLoseFast, if_neg hwm, if_pos hwo] at hfast
        exact Bool.noConfusion hfast
      · have hcw : checkWinner board = none := by
          cases hcw' : checkWinner board with
          | none => rfl
          | some w =>
            exfalso
            obtain ⟨t, ht, hmonoT, -⟩ := checkWinner_eq_some_mono board w hcw'
            rcases winner_is_sym board me opp w hchars hsym hcw' with hw | hw
            · exact hwm ((winsMask_symMask_iff board me).mpr ⟨t, ht, hw ▸ hmonoT⟩)
            · exact hwo ((winsMask_symMask_iff board opp).mpr ⟨t, ht, hw ▸ hmonoT⟩)
        by_cases hfull : symMask board me ||| symMask board opp = 511
        · have hcont : board.contains '-' = false :=
            (ormask_full_iff board me opp hlen hchars hsym).mp hfull
          have hd : isDraw board = true := by rw [isDraw, hcont, hcw]; rfl
          rw [value_draw 0 board me opp tm hcw hd]
        · have hd : isDraw board = false := by
            cases hcont : board.contains '-' with
            | true => rw [isDraw, hcont]; rfl
            | false =>
              exact absurd ((ormask_full_iff board me opp hlen hchars hsym).mpr hcont) hfull
          rw [value_zero_open board me opp tm hcw hd]
  | succ f ih =>
    intro board me opp tm hlen hchars hsym hmono hfast
    by_cases hwm : winsMask (symMask board me) = true
    · exact noLose_terminal (f + 1) board me opp tm hlen hchars hsym hmono hwm
    · by_cases hwo : winsMask (symMask board opp) = true
      · rw [noLoseFast, if_neg hwm, if_pos hwo] at hfast
        exact Bool.noConfusion hfast
      · have hcw : checkWinner board = none := by
          cases hcw' : checkWinner board with
          | none => rfl
          | some w =>
            exfalso
            obtain ⟨t, ht, hmonoT, -⟩ := checkWinner_eq_some_mono board w hcw'
            rcases winner_is_sym board me opp w hchars hsym hcw' with hw | hw
            · exact hwm ((winsMask_symMask_iff board me).mpr ⟨t, ht, hw ▸ hmonoT⟩)
            · exact hwo ((winsMask_symMask_iff board opp).mpr ⟨t, ht, hw ▸ hmonoT⟩)
        by_cases hfull : symMask board me ||| symMask board opp = 511
        · have hcont : board.contains '-' = false :=
            (ormask_full_iff board me opp hlen hchars hsym).mp hfull
          have hd : isDraw board = true := by rw [isDraw, hcont, hcw]; rfl
          rw [value_draw (f + 1) board me opp tm hcw hd]
        · have hd : isDraw board = false := by
            cases hcont : board.contains '-' with
            | true => rw [isDraw, hcont]; rfl
            | false =>
              exact absurd ((ormask_full_iff board me opp hlen hchars hsym).mpr hcont) hfull
          have hme : me ≠ '-' := by
            rcases hsym with ⟨h1, -⟩ | ⟨h1, -⟩ <;> rw [h1] <;> decide
          have hopp : opp ≠ '-' := by
            rcases hsym with ⟨-, h2⟩ | ⟨-, h2⟩ <;> rw [h2] <;> decide
          have hmo : me ≠ opp := by
            rcases hsym with ⟨h1, h2⟩ | ⟨h1, h2⟩ <;> rw [h1, h2] <;> decide
          have hmemme : me = 'X' ∨ me = 'O' := by
            rcases hsym with ⟨h1, -⟩ | ⟨h1, -⟩
            · exact Or.inl h1
            · exact Or.inr h1
          have hmemopp : opp = 'X' ∨ opp = 'O' := by
            rcases hsym with ⟨-, h2⟩ | ⟨-, h2⟩
            · exact Or.inr h2
            · exact Or.inl h2
          rw [noLoseFast, if_neg hwm, if_neg hwo, if_neg (by simpa using hfull),
            fast_avail_eq board me opp hlen hchars hsym] at hfast
          cases tm with
          | true =>
            rw [if_pos rfl] at hfast
            obtain ⟨p, hp, hpfast⟩ := List.any_eq_true.mp hfast
            obtain ⟨hp9, hpcell⟩ := (mem_getAvailableMoves board p).mp hp
            have hplt : p < board.length := (List.getElem?_eq_some.mp hpcell).1
            have hmaskme : symMask (makeMove board p me) me = symMask board me ||| 1 <<< p :=
              symMask_set_self board p me hplt
            have hmaskopp : symMask (makeMove board p me) opp = symMask board opp :=
              symMask_set_other board p me opp (fun he => hmo he.symm)
                (by rw [hpcell]; exact fun he => hopp (Option.some_inj.mp he).symm)
            have hchild : noLoseFast f (symMask (makeMove board p me) me)
                (symMask (makeMove board p me) opp) false = true := by
              rw [hmaskme, hmaskopp]; exact hpfast
            have hmono' : ¬(winsMask (symMask (makeMove board p me) me) = true ∧
                winsMask (symMask (makeMove board p me) opp) = true) := by
              rintro ⟨-, h2⟩
              rw [hmaskopp] at h2
              exact hwo h2
            have hval := ih (makeMove board p me) me opp false
              (by rw [makeMove, List.length_set]; exact hlen)
              (chars_makeMove board p me hchars hmemme) hsym hmono' hchild
            rw [value_succ_max f board me opp hcw hd]
            exact le_trans hval (mem_le_foldl_max _ (-1) _ (List.mem_map_of_mem _ hp))
          | false =>
            rw [if_neg Bool.false_ne_true] at hfast
            have hall := List.all_eq_true.mp hfast
            rw [value_succ_min f board me opp hcw hd]
            apply foldl_min_nonneg
            · norm_num
            · intro x hx
              obtain ⟨p, hp, hpx⟩ := List.mem_map.mp hx
              obtain ⟨hp9, hpcell⟩ := (mem_getAvailableMoves board p).mp hp
              have hplt : p < board.length := (List.getElem?_eq_some.mp hpcell).1
              have hmaskopp : symMask (makeMove board p opp) opp =
                  symMask board opp ||| 1 <<< p :=
                symMask_set_self board p opp hplt
              have hmaskme : symMask (makeMove board p opp) me = symMask board me :=
                symMask_set_other board p opp me hmo
                  (by rw [hpcell]; exact fun he => hme (Option.some_inj.mp he).symm)
              have hchild : noLoseFast f (symMask (makeMove board p opp) me)
                  (symMask (makeMove board p opp) opp) true = true := by
                rw [hmaskme, hmaskopp]; exact hall p hp
              have hmono' : ¬(winsMask (symMask (makeMove board p opp) me) = true ∧
                  winsMask (symMask (makeMove board p opp) opp) = true) := by
                rintro ⟨h1, -⟩
                rw [hmaskme] at h1
                exact hwm h1
              have hval := ih (makeMove board p opp) me opp true
                (by rw [makeMove, List.length_set]; exact hlen)
                (chars_makeMove board p opp hchars hmemopp) hsym hmono' hchild
              rw [← hpx]
              exact hval

/-! Concrete no-lose certificates for the shortcut openings, evaluated by the
kernel on the bitmask encoding: the centre reply on an empty board, and the
centre reply after a single opponent stone on any non-centre cell. -/

set_option maxRecDepth 4000 in
theorem noLoseFast_center : noLoseFast 9 16 0 false = true := by rfl

set_option maxRecDepth 4000 in
theorem noLoseFast_reply0 : noLoseFast 9 16 (1 <<< 0) false = true := by rfl

set_option maxRecDepth 4000 in
theorem noLoseFast_reply1 : noLoseFast 9 16 (1 <<< 1) false = true := by rfl

set_option maxRecDepth 4000 in
theorem noLoseFast_reply2 : noLoseFast 9 16 (1 <<< 2) false = true := by rfl

set_option maxRecDepth 4000 in
theorem noLoseFast_reply3 : noLoseFast 9 16 (1 <<< 3) false = true := by rfl

set_option maxRecDepth 4000 in
theorem noLoseFast_reply5 : noLoseFast 9 16 (1 <<< 5) false = true := by rfl

set_option maxRecDepth 4000 in
theorem noLoseFast_reply6 : noLoseFast 9 16 (1 <<< 6) false = true := by rfl

set_option maxRecDepth 4000 in
theorem noLoseFast_reply7 : noLoseFast 9 16 (1 <<< 7) false = true := by rfl

set_option maxRecDepth 4000 in
theorem noLoseFast_reply8 : noLoseFast 9 16 (1 <<< 8) false = true := by rfl

/-- All eight centre-reply certificates, dispatched on the opponent's cell. -/
theorem noLoseFast_reply_all : ∀ i, i < 9 → i ≠ 4 →
    noLoseFast 9 16 (1 <<< i) false = true := by
  intro i hi hne
  interval_cases i
  · exact noLoseFast_reply0
  · exact noLoseFast_reply1
  · exact noLoseFast_reply2
  · exact noLoseFast_reply3
  · exact absurd rfl hne
  · exact noLoseFast_reply5
  · exact noLoseFast_reply6
  · exact noLoseFast_reply7
  · exact noLoseFast_reply8

/-- Playing the centre of an empty board does not lose. -/
theorem empty_center_value :
    0 ≤ value 9 (makeMove (List.replicate 9 '-') 4 'X') 'X' 'O' false := by
  apply noLoseFast_sound 9 (makeMove (List.replicate 9 '-') 4 'X') 'X' 'O' false
    (by decide) (by decide) (Or.inl ⟨rfl, rfl⟩) (by decide)
  rw [show symMask (makeMove (List.replicate 9 '-') 4 'X') 'X' = 16 from by decide,
    show symMask (makeMove (List.replicate 9 '-') 4 'X') 'O' = 0 from by decide]
  exact noLoseFast_center

/-- Replying in the centre after a single opponent stone on any non-centre
cell does not lose. -/
theorem center_reply_value (i : Nat) (hi : i < 9) (hne : i ≠ 4)
    (hfast : noLoseFast 9 16 (1 <<< i) false = true) :
    0 ≤ value 9 (makeMove (makeMove (List.replicate 9 '-') i 'X') 4 'O') 'O' 'X' false := by
  have hlenr : (List.replicate 9 '-').length = 9 := List.length_replicate 9 '-'
  have hlen1 : (makeMove (List.replicate 9 '-') i 'X').length = 9 := by
    rw [makeMove, List.length_set]; exact hlenr
  have hcellr : (List.replicate 9 '-')[i]? = some '-' := by
    rw [List.getElem?_replicate, if_pos hi]
  have hcell4 : (makeMove (List.replicate 9 '-') i 'X')[4]? = some '-' := by
    rw [makeMove, List.getElem?_set_ne hne, List.getElem?_replicate]
    decide
  have hmaskO : symMask (makeMove (makeMove (List.replicate 9 '-') i 'X') 4 'O') 'O' = 16 := by
    rw [symMask_set_self _ 4 'O' (by omega),
      symMask_set_other _ i 'X' 'O' (by decide) (by rw [hcellr]; decide),
      symMask_blank 9 'O' (by decide)]
    decide
  have hmaskX : symMask (makeMove (makeMove (List.replicate 9 '-') i 'X') 4 'O') 'X' =
      1 <<< i := by
    rw [symMask_set_other _ 4 'O' 'X' (by decide) (by rw [hcell4]; decide),
      symMask_set_self _ i 'X' (by omega),
      symMask_blank 9 'X' (by decide), Nat.zero_or]
  have hcharsr : ∀ c ∈ List.replicate 9 '-', c = 'X' ∨ c = 'O' ∨ c = '-' := by
    intro c hc
    exact Or.inr (Or.inr (List.eq_of_mem_replicate hc))
  apply noLoseFast_sound 9 _ 'O' 'X' false
    (by rw [makeMove, List.length_set]; exact hlen1)
    (chars_makeMove _ 4 'O' (chars_makeMove _ i 'X' hcharsr (Or.inl rfl)) (Or.inr rfl))
    (Or.inr ⟨rfl, rfl⟩)
  · rw [hmaskO]
    rintro ⟨h1, -⟩
    exact absurd h1 (by decide)
  · rw [hmaskO, hmaskX]
    exact hfast

/-- An all-available 9-cell board is the empty board. -/
theorem board_of_avail_nine (board : List Char) (hlen : board.length = 9)
    (h9 : (getAvailableMoves board).length = 9) :
    board = List.replicate 9 '-' := by
  have hall : ∀ i ∈ List.range 9, (board[i]? == some '-') = true := by
    apply List.filter_length_eq_length.mp
    rw [List.length_range]
    exact h9
  apply List.ext_getElem?
  intro n
  by_cases hn : n < 9
  · have hcell : board[n]? = some '-' := by
      simpa using hall n (List.mem_range.mpr hn)
    rw [hcell, List.getElem?_replicate, if_pos hn]
  · rw [List.getElem?_eq_none (by omega),
      List.getElem?_eq_none (by rw [List.length_replicate]; omega)]

/-- A 9-cell board with 8 available cells is a single stone on an otherwise
empty board. -/
theorem board_of_avail_eight (board : List Char) (hlen : board.length = 9)
    (h8 : (getAvailableMoves board).length = 8) :
    ∃ i c, i < 9 ∧ c ≠ '-' ∧ board[i]? = some c ∧
      board = makeMove (List.replicate 9 '-') i c := by
  have hcount : (List.range 9).countP (fun i => board[i]? == some '-') = 8 := by
    rw [List.countP_eq_length_filter]
    exact h8
  have htot := countP_not_add (List.range 9) (fun i => board[i]? == some '-')
  rw [List.length_range] at htot
  have hone : ((List.range 9).filter fun i => !(board[i]? == some '-')).length = 1 := by
    rw [← List.countP_eq_length_filter]
    omega
  obtain ⟨i, hi⟩ := List.length_eq_one.mp hone
  have himem : i ∈ (List.range 9).filter fun i => !(board[i]? == some '-') := by
    rw [hi]
    exact List.mem_cons_self _ _
  obtain ⟨hirange, hibit⟩ := List.mem_filter.mp himem
  have hi9 : i < 9 := List.mem_range.mp hirange
  have hine : board[i]? ≠ some '-' := by simpa using hibit
  obtain ⟨c, hc⟩ : ∃ c, board[i]? = some c :=
    ⟨board[i], List.getElem?_eq_getElem (show i < board.length by omega)⟩
  have hcne : c ≠ '-' := fun he => hine (he ▸ hc)
  refine ⟨i, c, hi9, hcne, hc, ?_⟩
  apply List.ext_getElem?
  intro n
  by_cases hn : n < 9
  · by_cases hni : n = i
    · subst hni
      rw [hc, makeMove, List.getElem?_set_self (by rw [List.length_replicate]; omega)]
    · have hnmem : n ∉ (List.range 9).filter fun j => !(board[j]? == some '-') := by
        rw [hi]
        simp [hni]
      have hnb : ¬ (!(board[n]? == some '-')) = true := by
        intro hb
        exact hnmem (List.mem_filter.mpr ⟨List.mem_range.mpr hn, hb⟩)
      have hcell : board[n]? = some '-' := by simpa using hnb
      rw [hcell, makeMove, List.getElem?_set_ne (fun he => hni he.symm),
        List.getElem?_replicate, if_pos hn]
  · rw [List.getElem?_eq_none (by omega),
      List.getElem?_eq_none (by rw [makeMove, List.length_set, List.length_replicate]; omega)]

theorem sign_nonneg_iff (a : Int) : 0 ≤ a.sign ↔ 0 ≤ a := by
  rcases sign_trich a with ⟨h1, h2⟩ | ⟨h1, h2⟩ | ⟨h1, h2⟩ <;> omega

theorem validateBoard_props (board : List Char) (h : (validateBoard board).valid = true) :
    board.length = 9 ∧ ∀ c ∈ board, c = 'X' ∨ c = 'O' ∨ c = '-' := by
  by_cases h9 : board.length = 9
  · by_cases hall : board.all (fun c => c == 'X' || c == 'O' || c == '-') = true
    · refine ⟨h9, ?_⟩
      intro c hc
      simpa [or_assoc] using List.all_eq_true.mp hall c hc
    · exfalso
      rw [validateBoard, if_neg (by simp [h9]), if_pos (by simpa using hall)] at h
      exact Bool.noConfusion h
  · exfalso
    rw [validateBoard, if_pos h9] at h
    exact Bool.noConfusion h

theorem getNextSymbol_sym (board : List Char) :
    getNextSymbol board = 'X' ∨ getNextSymbol board = 'O' := by
  rw [getNextSymbol]
  split
  · exact Or.inl rfl
  · exact Or.inr rfl

/-- A position with non-negative game value and the mover to play has some
available move whose successor position still has non-negative value. -/
theorem exists_nonneg_child (board : List Char) (s opp : Char)
    (hnw : checkWinner board = none) (hnd : isDraw board = false)
    (hnotlost : 0 ≤ value 9 board s opp true) :
    ∃ k ∈ getAvailableMoves board, 0 ≤ value 8 (makeMove board k s) s opp false := by
  have hval9 : value 9 board s opp true =
      ((getAvailableMoves board).map fun position =>
        value 8 (makeMove board position s) s opp false).foldl max (-1) :=
    value_succ_max 8 board s opp hnw hnd
  rw [hval9] at hnotlost
  rcases foldl_max_choice ((getAvailableMoves board).map fun position =>
      value 8 (makeMove board position s) s opp false) (-1) with h | h
  · rw [h] at hnotlost
    exact absurd hnotlost (by norm_num)
  · obtain ⟨k, hk, hkv⟩ := List.mem_map.mp h
    exact ⟨k, hk, by rw [hkv]; exact hnotlost⟩

/-- Claim C2, counterexample to the unrestricted claim: `XOXOX----` is a
valid alternating-play position, non-terminal, with `O` to move; the engine
returns the block at cell 6, but the position is already lost — after the
returned move the opponent wins under optimal play (`value = -1`), so "never
results in a loss" fails on reachable non-terminal boards. -/
theorem claim2_counterexample :
    (validateBoard ['X', 'O', 'X', 'O', 'X', '-', '-', '-', '-']).valid = true ∧
      checkWinner ['X', 'O', 'X', 'O', 'X', '-', '-', '-', '-'] = none ∧
      isDraw ['X', 'O', 'X', 'O', 'X', '-', '-', '-', '-'] = false ∧
      getNextSymbol ['X', 'O', 'X', 'O', 'X', '-', '-', '-', '-'] = 'O' ∧
      findBestMove ['X', 'O', 'X', 'O', 'X', '-', '-', '-', '-'] 'O' 'X' = 6 ∧
      value 9 (makeMove ['X', 'O', 'X', 'O', 'X', '-', '-', '-', '-'] 6 'O') 'O' 'X' false
        = -1 := by
  refine ⟨by decide, by decide, by decide, by decide, by decide, by decide⟩

set_option maxHeartbeats 1000000 in
/-- Claim C2, amended: on a valid alternating-play board that is non-terminal
and not already lost for the side to move (`value ≥ 0`), the engine's chosen
cell is one of the available cells (an empty in-range index, so the returned
move is legal) and playing it keeps the game value non-negative: with
optimal play from the opponent (and from the engine's side) afterwards, the
acting symbol never loses.  The restriction to not-already-lost positions is
necessary by `claim2_counterexample`; it covers in particular every position
of a game in which the engine's side has played optimally from the start,
and both heuristic shortcut openings are covered by explicit certificates. -/
theorem claim2_theorem (board : List Char) (s opp : Char)
    (hs : s = getNextSymbol board)
    (hopp : opp = if s = 'X' then 'O' else 'X')
    (hvalid : (validateBoard board).valid = true)
    (hnw : checkWinner board = none)
    (hnd : isDraw board = false)
    (hnotlost : 0 ≤ value 9 board s opp true) :
    ∃ m : Nat, findBestMove board s opp = (m : Int) ∧
      m ∈ getAvailableMoves board ∧
      0 ≤ value 9 (makeMove board m s) s opp false := by
  obtain ⟨hlen, hchars⟩ := validateBoard_props board hvalid
  have hsym : (s = 'X' ∧ opp = 'O') ∨ (s = 'O' ∧ opp = 'X') := by
    rcases getNextSymbol_sym board with h | h
    · left
      refine ⟨by rw [hs, h], ?_⟩
      rw [hopp, if_pos (by rw [hs, h])]
    · right
      refine ⟨by rw [hs, h], ?_⟩
      rw [hopp, if_neg (by rw [hs, h]; decide)]
  have hme : s ≠ '-' := by
    rcases hsym with ⟨h1, -⟩ | ⟨h1, -⟩ <;> rw [h1] <;> decide
  have hoppne : opp ≠ '-' := by
    rcases hsym with ⟨-, h2⟩ | ⟨-, h2⟩ <;> rw [h2] <;> decide
  have hmo : s ≠ opp := by
    rcases hsym with ⟨h1, h2⟩ | ⟨h1, h2⟩ <;> rw [h1, h2] <;> decide
  have hsmem : s = 'X' ∨ s = 'O' := by
    rcases hsym with ⟨h1, -⟩ | ⟨h1, -⟩
    · exact Or.inl h1
    · exact Or.inr h1
  have hoppmem : opp = 'X' ∨ opp = 'O' := by
    rcases hsym with ⟨-, h2⟩ | ⟨-, h2⟩
    · exact Or.inr h2
    · exact Or.inl h2
  have hanil : getAvailableMoves board ≠ [] := getAvailableMoves_ne_nil board hlen hnw hnd
  by_cases hL0 : (getAvailableMoves board).length = 0
  · exact absurd (List.length_eq_zero.mp hL0) hanil
  by_cases hL9 : (getAvailableMoves board).length = 9
  · -- empty board: the centre shortcut
    have hbempty : board = List.replicate 9 '-' := board_of_avail_nine board hlen hL9
    subst hbempty
    obtain ⟨h1, h2⟩ : s = 'X' ∧ opp = 'O' := by
      have hsX : s = 'X' := by rw [hs]; decide
      rcases hsym with h | ⟨h1, -⟩
      · exact h
      · rw [hsX] at h1
        exact absurd h1 (by decide)
    subst h1
    subst h2
    exact ⟨4, by decide, by decide, empty_center_value⟩
  by_cases hL8 : (getAvailableMoves board).length = 8 ∧ board[4]? = some '-'
  · -- one stone, centre free: the centre-reply shortcut
    obtain ⟨hL8l, hc4⟩ := hL8
    obtain ⟨i, c, hi9, hcne, hcell, hbform⟩ := board_of_avail_eight board hlen hL8l
    have hne4 : i ≠ 4 := by
      intro he
      rw [he, hc4] at hcell
      exact hcne (Option.some_inj.mp hcell).symm
    have hcmem : c ∈ board := by
      obtain ⟨hlt, hg⟩ := List.getElem?_eq_some.mp hcell
      exact hg ▸ List.getElem_mem hlt
    rcases hchars c hcmem with hcX | hcO | hcd
    · subst hcX
      interval_cases i <;>
        first
          | exact absurd rfl hne4
          | (obtain ⟨h1, h2⟩ : s = 'O' ∧ opp = 'X' := by
              have hsO : s = 'O' := by rw [hs, hbform]; decide
              rcases hsym with ⟨hx, -⟩ | h
              · rw [hsO] at hx
                exact absurd hx (by decide)
              · exact h
             subst h1
             subst h2
             refine ⟨4, by rw [hbform]; decide, by rw [hbform]; decide, ?_⟩
             rw [hbform]
             exact center_reply_value _ (by decide) (by decide)
               (noLoseFast_reply_all _ (by decide) (by decide)))
    · exfalso
      subst hcO
      rw [hbform] at hvalid
      interval_cases i <;> exact absurd hvalid (by decide)
    · exact absurd hcd hcne
  -- no shortcut: the three search branches
  cases hfind1 : (getAvailableMoves board).find? (fun position =>
      checkWinner (makeMove board position s) == some s) with
  | some m =>
    -- immediate win
    have hfb : findBestMove board s opp = (m : Int) := by
      unfold findBestMove
      rw [if_neg hL0, if_neg hL9, if_neg hL8, hfind1]
    have hwin : checkWinner (makeMove board m s) = some s := by
      simpa using List.find?_some hfind1
    refine ⟨m, hfb, List.mem_of_find?_eq_some hfind1, ?_⟩
    rw [value_eq_of_winner 9 _ s opp s false hwin, if_pos rfl]
    norm_num
  | none =>
    cases hfind2 : (getAvailableMoves board).find? (fun position =>
        checkWinner (makeMove board position opp) == some opp) with
    | some m =>
      -- immediate block: the only non-losing move is the block itself
      have hfb : findBestMove board s opp = (m : Int) := by
        unfold findBestMove
        rw [if_neg hL0, if_neg hL9, if_neg hL8, hfind1, hfind2]
      have hmmem : m ∈ getAvailableMoves board := List.mem_of_find?_eq_some hfind2
      have hoppwin : checkWinner (makeMove board m opp) = some opp := by
        simpa using List.find?_some hfind2
      have hnowin : ∀ p ∈ getAvailableMoves board,
          ¬ checkWinner (makeMove board p s) = some s := by
        intro p hp
        simpa using List.find?_eq_none.mp hfind1 p hp
      obtain ⟨k, hk, hkval⟩ := exists_nonneg_child board s opp hnw hnd hnotlost
      obtain ⟨hk9, hkcell⟩ := (mem_getAvailableMoves board k).mp hk
      obtain ⟨hm9, hmcell⟩ := (mem_getAvailableMoves board m).mp hmmem
      have hkm : k = m := by
        by_contra hkm
        have hlenk : (makeMove board k s).length = 9 := by
          rw [makeMove, List.length_set]; exact hlen
        have hcharsk := chars_makeMove board k s hchars hsmem
        have hcwk : checkWinner (makeMove board k s) = none := by
          cases hcwk' : checkWinner (makeMove board k s) with
          | none => rfl
          | some w =>
            exfalso
            rcases winner_is_sym _ s opp w hcharsk hsym hcwk' with hw | hw
            · exact hnowin k hk (hw ▸ hcwk')
            · obtain ⟨t, ht, hmonoT, hwd⟩ := checkWinner_eq_some_mono _ w hcwk'
              obtain ⟨hws, -⟩ := mono_of_set_winner_free board k s t w hlen hk9 hnw ht
                hwd hmonoT
              rw [hws] at hw
              exact hmo hw
        have hkcellm : (makeMove board k s)[m]? = some '-' := by
          rw [makeMove, List.getElem?_set_ne hkm, hmcell]
        have hdk : isDraw (makeMove board k s) = false := by
          have hmem : '-' ∈ makeMove board k s := by
            obtain ⟨hlt, hg⟩ := List.getElem?_eq_some.mp hkcellm
            exact hg ▸ List.getElem_mem hlt
          rw [isDraw, show (makeMove board k s).contains '-' = true from by simpa using hmem]
          rfl
        have hmk : m ∈ getAvailableMoves (makeMove board k s) :=
          (mem_getAvailableMoves _ m).mpr ⟨hm9, hkcellm⟩
        have hmo' : opp ≠ s := fun he => hmo he.symm
        obtain ⟨t, ht, hmonoT, -⟩ := checkWinner_eq_some_mono _ opp hoppwin
        have transfer : ∀ j : Nat, (makeMove board m opp)[j]? = some opp →
            (makeMove (makeMove board k s) m opp)[j]? = some opp := by
          intro j hj
          by_cases hjm : j = m
          · subst hjm
            rw [makeMove, List.getElem?_set_self (by rw [hlenk]; omega)]
          · rw [makeMove, List.getElem?_set_ne (fun he => hjm he.symm)] at hj
            have hjk : j ≠ k := by
              intro he
              rw [he, hkcell] at hj
              exact hoppne (Option.some_inj.mp hj).symm
            rw [makeMove, List.getElem?_set_ne (fun he => hjm he.symm), makeMove,
              List.getElem?_set_ne (fun he => hjk he.symm)]
            exact hj
        have hmono2 : monoTriple (makeMove (makeMove board k s) m opp) t opp :=
          ⟨transfer t.1 hmonoT.1, transfer t.2.1 hmonoT.2.1, transfer t.2.2 hmonoT.2.2⟩
        have hlen2 : (makeMove (makeMove board k s) m opp).length = 9 := by
          rw [makeMove, List.length_set]; exact hlenk
        have hchars2 := chars_makeMove _ m opp hcharsk hoppmem
        have hcw2 : checkWinner (makeMove (makeMove board k s) m opp) = some opp := by
          cases hcw2' : checkWinner (makeMove (makeMove board k s) m opp) with
          | none =>
            exact absurd hmono2 (checkWinner_none_no_mono _ t opp hlen2 ht hcw2' hoppne)
          | some w =>
            rcases winner_is_sym _ s opp w hchars2 hsym hcw2' with hw | hw
            · exfalso
              obtain ⟨t2, ht2, hmono2', hwd2⟩ := checkWinner_eq_some_mono _ w hcw2'
              obtain ⟨hws2, -⟩ := mono_of_set_winner_free (makeMove board k s) m opp t2 w
                hlenk hm9 hcwk ht2 hwd2 hmono2'
              rw [hws2] at hw
              exact hmo hw.symm
            · rw [hw]
        have hvb2 : value 7 (makeMove (makeMove board k s) m opp) s opp true = -1 := by
          rw [value_eq_of_winner 7 _ s opp opp true hcw2, if_neg hmo']
        have hvk : value 8 (makeMove board k s) s opp false ≤ -1 := by
          have h8eq : value 8 (makeMove board k s) s opp false =
              ((getAvailableMoves (makeMove board k s)).map fun position =>
                value 7 (makeMove (makeMove board k s) position opp) s opp true).foldl
                min 1 :=
            value_succ_min 7 _ s opp hcwk hdk
          rw [h8eq]
          have hmem7 : value 7 (makeMove (makeMove board k s) m opp) s opp true ∈
              (getAvailableMoves (makeMove board k s)).map fun position =>
                value 7 (makeMove (makeMove board k s) position opp) s opp true :=
            List.mem_map_of_mem _ hmk
          have hle := foldl_min_le_mem _ 1 _ hmem7
          rw [hvb2] at hle
          exact hle
        omega
      rw [hkm] at hkval
      refine ⟨m, hfb, hmmem, ?_⟩
      have hlenm : (makeMove board m s).length = 9 := by
        rw [makeMove, List.length_set]; exact hlen
      have hEm := avail_set_length board m s hmmem hme
      have hE9 := avail_length_le board
      rw [value_fuel_congr 9 8 (makeMove board m s) s opp false hlenm hme hoppne
        (by omega) (by omega)]
      exact hkval
    | none =>
      -- full root search
      have hbm : findBestMove board s opp =
          bestLoop board s opp (getAvailableMoves board)
            (((getAvailableMoves board).headD 0 : Nat) : Int) (-INF) := by
        unfold findBestMove
        rw [if_neg hL0, if_neg hL9, if_neg hL8, hfind1, hfind2]
      obtain ⟨k, hk, hkval⟩ := exists_nonneg_child board s opp hnw hnd hnotlost
      have hchild : ∀ p, p ∈ getAvailableMoves board →
          value 9 (makeMove board p s) s opp false =
            (minimax 9 (makeMove board p s) 0 false (-INF) INF s opp).sign := by
        intro p hp
        have hlenp : (makeMove board p s).length = 9 := by
          rw [makeMove, List.length_set]; exact hlen
        have hEp := avail_set_length board p s hp hme
        have hE9 := avail_length_le board
        rw [minimax_eq_noPruning 9 (makeMove board p s) 0 false s opp hlenp
          (chars_makeMove board p s hchars hsmem) hsym (by omega)]
        exact value_eq_sign 9 (makeMove board p s) 0 false s opp hlenp
          (chars_makeMove board p s hchars hsmem) hsym (by omega) (by omega)
      rcases bestLoop_spec board s opp (getAvailableMoves board)
          (((getAvailableMoves board).headD 0 : Nat) : Int) (-INF)
        with ⟨heq, hall⟩ | ⟨pre, mm, post, hms, heq, hgt, hpre, hpost⟩
      · exfalso
        have hle := hall k hk
        have heqp := minimax_eq_noPruning 9 (makeMove board k s) 0 false s opp
          (by rw [makeMove, List.length_set]; exact hlen)
          (chars_makeMove board k s hchars hsmem) hsym (by omega)
        have hbd := minimaxNoPruning_natAbs_le 9 (makeMove board k s) 0 false s opp
          (by rw [makeMove, List.length_set]; exact hlen)
          (chars_makeMove board k s hchars hsmem) hsym
        rw [heqp] at hle
        have hINF : INF = 1000000 := rfl
        omega
      · have hmmem : mm ∈ getAvailableMoves board := by
          rw [hms]
          exact List.mem_append_right _ (List.mem_cons_self _ _)
        have hmax : ∀ p ∈ getAvailableMoves board,
            minimax 9 (makeMove board p s) 0 false (-INF) INF s opp ≤
              minimax 9 (makeMove board mm s) 0 false (-INF) INF s opp := by
          intro p hp
          rw [hms] at hp
          rcases List.mem_append.mp hp with h | h
          · exact le_of_lt (hpre p h)
          · rcases List.mem_cons.mp h with h | h
            · exact h ▸ le_refl _
            · exact hpost p h
        have hlenk : (makeMove board k s).length = 9 := by
          rw [makeMove, List.length_set]; exact hlen
        have hEk := avail_set_length board k s hk hme
        have hE9 := avail_length_le board
        have hSk : 0 ≤ minimax 9 (makeMove board k s) 0 false (-INF) INF s opp := by
          apply (sign_nonneg_iff _).mp
          rw [← hchild k hk,
            value_fuel_congr 9 8 (makeMove board k s) s opp false hlenk hme hoppne
              (by omega) (by omega)]
          exact hkval
        have hvm : 0 ≤ value 9 (makeMove board mm s) s opp false := by
          rw [hchild mm hmmem]
          exact (sign_nonneg_iff _).mpr (le_trans hSk (hmax k hk))
        exact ⟨mm, by rw [hbm, heq], hmmem, hvm⟩

/-- Claim C2, witness: on `XOXOXO---` (valid, non-terminal, `X` to move, not
lost), the engine's move is one of the available cells and is non-losing —
here it is the immediate winning move at cell 6. -/
theorem claim2_witness :
    ∃ m : Nat, findBestMove ['X', 'O', 'X', 'O', 'X', 'O', '-', '-', '-'] 'X' 'O' = (m : Int) ∧
      m ∈ getAvailableMoves ['X', 'O', 'X', 'O', 'X', 'O', '-', '-', '-'] ∧
      0 ≤ value 9 (makeMove ['X', 'O', 'X', 'O', 'X', 'O', '-', '-', '-'] m 'X')
        'X' 'O' false :=
  claim2_theorem ['X', 'O', 'X', 'O', 'X', 'O', '-', '-', '-'] 'X' 'O'
    (by decide) (by decide) (by decide) (by decide) (by decide) (by decide)

end TicTacToeSpec
